import Mathlib

/-!
Verification of the `ipnet` crate's core components against its
specification.

The checked sources contain the crate root (`lib.rs`, which declares and
documents the modules `ipext`, `ipnet`, `mask` and `parser`) and the
`schemars` adapter (`ipnet_schemars.rs`).  The bodies of `ipext`, `ipnet`
and `mask` are not part of the checked sources, so the corresponding
components (addresses, masks, ranges, subnet aggregation, aggregation of
network collections) are modelled here from the specification's own
description of them, and the properties claimed of them are settled
against those models.  The JSON-schema component is embedded from
`ipnet_schemars.rs` directly.

Addresses of a family of bit width `W` (32 for IPv4, 128 for IPv6) are
embedded as natural numbers below `2 ^ W`.  A network value
(address, prefix length) is a pair of naturals.
-/

namespace Ipnet

/-! ## Errors

Modelled from the spec: the error taxonomy of section 7 (all explicit,
typed failures). -/

inductive IpnetError where
  | invalidPrefixLength
  | invalidPrefixMask
  | invalidRange
  | arithmeticOverflow
deriving DecidableEq

/-! ## Address primitives and the subnet aggregator -/

/-- Modelled from the spec: the number of trailing zero bits of a positive
number (used for `align_bits` in the aggregation step).  For `n = 0` the
caller substitutes the width `W`. -/
def tzPos (n : Nat) : Nat :=
  if h : n = 0 then 0
  else if n % 2 = 1 then 0
  else 1 + tzPos (n / 2)
termination_by n
decreasing_by
  exact Nat.div_lt_self (Nat.pos_of_ne_zero h) (by omega)

/-- Modelled from the spec, section 4.3 step 2: `align_bits` = number of
trailing zero bits of the cursor; if the cursor is 0 it is treated as `W`. -/
def trailingZeros (W n : Nat) : Nat :=
  if n = 0 then W else tzPos n

/-- Modelled from the spec, section 4.3 steps 2-4: the prefix length of the
block emitted at cursor `c` inside the span `[c, hi]`:
`natural_block_bits = min(align_bits, floor_log2(avail))` with
`avail = hi - c + 1`, and the prefix is `max(W - natural_block_bits, pmin)`. -/
def blockPrefix (W pmin hi c : Nat) : Nat :=
  max (W - min (trailingZeros W c) (Nat.log2 (hi + 1 - c))) pmin

/-- Modelled from the spec, section 4.3: the loop of the SubnetAggregator
(the `IpSubnets`/`Ipv4Subnets`/`Ipv6Subnets` iterators), started at cursor
`c`: while `c ≤ hi`, emit the network value `(c, prefix)` and advance the
cursor by `2 ^ (W - prefix)`. -/
def ipSubnetsFrom (W pmin hi c : Nat) : List (Nat × Nat) :=
  if c ≤ hi then
    (c, blockPrefix W pmin hi c) ::
      ipSubnetsFrom W pmin hi (c + 2 ^ (W - blockPrefix W pmin hi c))
  else []
termination_by hi + 1 - c
decreasing_by
  have h2 : 0 < 2 ^ (W - blockPrefix W pmin hi c) := Nat.two_pow_pos _
  omega

/-- Modelled from the spec, section 4.3: the full SubnetAggregator output
for the inclusive range `[lo, hi]` and minimum prefix length `pmin`. -/
def ipSubnets (W pmin lo hi : Nat) : List (Nat × Nat) :=
  ipSubnetsFrom W pmin hi lo

/-- Modelled from the spec, section 3 / glossary: the network address of a
network value `(address, prefix_len)` is the address with all bits beyond
the prefix length cleared to 0 (the address AND the prefix mask),
i.e. the address rounded down to a multiple of `2 ^ (W - prefix_len)`. -/
def netAddr (W : Nat) (b : Nat × Nat) : Nat :=
  b.1 / 2 ^ (W - b.2) * 2 ^ (W - b.2)

/-- Modelled from the spec, section 3 / glossary: the broadcast address of
a network value: the address with all bits beyond the prefix length set
to 1 (the address OR the complement of the prefix mask). -/
def bcastAddr (W : Nat) (b : Nat × Nat) : Nat :=
  netAddr W b + (2 ^ (W - b.2) - 1)

/-- The address set of a network value: the inclusive interval from its
network address to its broadcast address. -/
def inBlock (W : Nat) (b : Nat × Nat) (x : Nat) : Prop :=
  netAddr W b ≤ x ∧ x ≤ bcastAddr W b

/-- Two network values have disjoint address sets. -/
def blocksDisjoint (W : Nat) (b c : Nat × Nat) : Prop :=
  ∀ x, ¬(inBlock W b x ∧ inBlock W c x)

/-! ### Basic facts about the emitted blocks -/

theorem tzPos_eq (n : Nat) :
    tzPos n = if n = 0 then 0 else if n % 2 = 1 then 0 else 1 + tzPos (n / 2) := by
  rw [tzPos]
  split <;> simp_all

theorem tzPos_dvd (n : Nat) : 2 ^ tzPos n ∣ n := by
  induction n using Nat.strong_induction_on with
  | _ n ih =>
    by_cases h0 : n = 0
    · simp [h0]
    by_cases h1 : n % 2 = 1
    · rw [tzPos_eq]
      simp [h0, h1]
    · rw [tzPos_eq]
      simp only [h0, h1, if_false]
      obtain ⟨q, hq⟩ := ih (n / 2) (Nat.div_lt_self (Nat.pos_of_ne_zero h0) (by omega))
      refine ⟨q, ?_⟩
      have h2 : n = 2 * (n / 2) := by omega
      rw [pow_add, pow_one]
      calc n = 2 * (n / 2) := h2
        _ = 2 * (2 ^ tzPos (n / 2) * q) := by conv_lhs => rw [hq]
        _ = 2 ^ 1 * 2 ^ tzPos (n / 2) * q := by ring

theorem le_tzPos (k n : Nat) (hn : n ≠ 0) (h : 2 ^ k ∣ n) : k ≤ tzPos n := by
  induction k generalizing n with
  | zero => omega
  | succ k ih =>
    have h2 : 2 ∣ n := dvd_trans (dvd_pow_self 2 (by omega : k + 1 ≠ 0)) h
    obtain ⟨m, hm⟩ := h2
    have h1 : ¬ n % 2 = 1 := by omega
    rw [tzPos_eq]
    simp only [hn, h1, if_false]
    have hd : 2 ^ k ∣ n / 2 := by
      obtain ⟨q, hq⟩ := h
      refine ⟨q, ?_⟩
      rw [hq, pow_succ, Nat.mul_comm (2 ^ k) 2, Nat.mul_assoc]
      exact Nat.mul_div_cancel_left _ (by omega)
    have hnz : n / 2 ≠ 0 := by omega
    have := ih (n / 2) hnz hd
    omega

theorem trailingZeros_dvd (W n : Nat) : 2 ^ trailingZeros W n ∣ n := by
  rw [trailingZeros]
  by_cases h : n = 0
  · simp [h]
  · simp only [h, if_neg]
    exact tzPos_dvd n

theorem le_trailingZeros (W k n : Nat) (hk : k ≤ W) (h : 2 ^ k ∣ n) :
    k ≤ trailingZeros W n := by
  rw [trailingZeros]
  by_cases h0 : n = 0
  · simp [h0, hk]
  · simp only [h0, if_neg]
    exact le_tzPos k n h0 h

/-- The exponent of the emitted block: `W - blockPrefix` is at most
`natural_block_bits`. -/
theorem blockExp_le_nbb (W pmin hi c : Nat) :
    W - blockPrefix W pmin hi c ≤
      min (trailingZeros W c) (Nat.log2 (hi + 1 - c)) := by
  rw [blockPrefix]
  omega

theorem blockSize_dvd (W pmin hi c : Nat) :
    2 ^ (W - blockPrefix W pmin hi c) ∣ c := by
  refine dvd_trans (pow_dvd_pow 2 ?_) (trailingZeros_dvd W c)
  have := blockExp_le_nbb W pmin hi c
  omega

/-- The emitted block never overshoots `hi`. -/
theorem blockSize_le_avail (W pmin hi c : Nat) (h : c ≤ hi) :
    c + 2 ^ (W - blockPrefix W pmin hi c) ≤ hi + 1 := by
  have havail : hi + 1 - c ≠ 0 := by omega
  have h1 : W - blockPrefix W pmin hi c ≤ Nat.log2 (hi + 1 - c) := by
    have := blockExp_le_nbb W pmin hi c
    omega
  have h2 : 2 ^ (W - blockPrefix W pmin hi c) ≤ 2 ^ Nat.log2 (hi + 1 - c) :=
    Nat.pow_le_pow_right (by omega) h1
  have h3 : 2 ^ Nat.log2 (hi + 1 - c) ≤ hi + 1 - c := Nat.log2_self_le havail
  omega

theorem blockPrefix_ge_pmin (W pmin hi c : Nat) : pmin ≤ blockPrefix W pmin hi c := by
  rw [blockPrefix]; omega

theorem blockPrefix_le_W (W pmin hi c : Nat) (hp : pmin ≤ W) :
    blockPrefix W pmin hi c ≤ W := by
  rw [blockPrefix]; omega

/-- With `pmin = W` the emitted prefix is exactly `W`. -/
theorem blockPrefix_W (W hi c : Nat) : blockPrefix W W hi c = W := by
  rw [blockPrefix]; omega

/-- A network value whose address is aligned to its own block size has
itself as network address. -/
theorem netAddr_of_aligned (W : Nat) (b : Nat × Nat)
    (h : 2 ^ (W - b.2) ∣ b.1) : netAddr W b = b.1 := by
  rw [netAddr]
  exact Nat.div_mul_cancel h

theorem inBlock_of_aligned (W : Nat) (b : Nat × Nat) (x : Nat)
    (h : 2 ^ (W - b.2) ∣ b.1) :
    inBlock W b x ↔ b.1 ≤ x ∧ x < b.1 + 2 ^ (W - b.2) := by
  have h2 : 0 < 2 ^ (W - b.2) := Nat.two_pow_pos _
  rw [inBlock, bcastAddr, netAddr_of_aligned W b h]
  omega

/-- One unfolding of the aggregation loop at a live cursor. -/
theorem ipSubnetsFrom_cons (W pmin hi c : Nat) (h : c ≤ hi) :
    ipSubnetsFrom W pmin hi c =
      (c, blockPrefix W pmin hi c) ::
        ipSubnetsFrom W pmin hi (c + 2 ^ (W - blockPrefix W pmin hi c)) := by
  rw [ipSubnetsFrom]
  simp [h]

theorem ipSubnetsFrom_nil (W pmin hi c : Nat) (h : hi < c) :
    ipSubnetsFrom W pmin hi c = [] := by
  rw [ipSubnetsFrom]
  simp [show ¬ c ≤ hi by omega]

/-! ### Coverage, ordering and disjointness of the aggregator output -/

theorem ipSubnetsFrom_cover (W pmin hi : Nat) :
    ∀ n c, hi + 1 - c ≤ n →
      ∀ x, (∃ b ∈ ipSubnetsFrom W pmin hi c, inBlock W b x) ↔ c ≤ x ∧ x ≤ hi := by
  intro n
  induction n with
  | zero =>
    intro c hc x
    rw [ipSubnetsFrom_nil W pmin hi c (by omega)]
    simp
    omega
  | succ n ih =>
    intro c hc x
    by_cases h : c ≤ hi
    · rw [ipSubnetsFrom_cons W pmin hi c h]
      have hsz : 0 < 2 ^ (W - blockPrefix W pmin hi c) := Nat.two_pow_pos _
      have hfit := blockSize_le_avail W pmin hi c h
      have hhead : ∀ y, inBlock W (c, blockPrefix W pmin hi c) y ↔
          c ≤ y ∧ y < c + 2 ^ (W - blockPrefix W pmin hi c) :=
        fun y => inBlock_of_aligned W _ y (blockSize_dvd W pmin hi c)
      have htail := ih (c + 2 ^ (W - blockPrefix W pmin hi c)) (by omega) x
      constructor
      · rintro ⟨b, hb, hxb⟩
        rcases List.mem_cons.mp hb with rfl | hb
        · have := (hhead x).mp hxb
          omega
        · have := htail.mp ⟨b, hb, hxb⟩
          omega
      · rintro ⟨h1, h2⟩
        by_cases hx : x < c + 2 ^ (W - blockPrefix W pmin hi c)
        · exact ⟨_, List.mem_cons_self _ _, (hhead x).mpr ⟨h1, hx⟩⟩
        · obtain ⟨b, hb, hxb⟩ := htail.mpr (by omega)
          exact ⟨b, List.mem_cons_of_mem _ hb, hxb⟩
    · rw [ipSubnetsFrom_nil W pmin hi c (by omega)]
      simp
      omega

theorem ipSubnetsFrom_mem (W pmin hi : Nat) :
    ∀ n c, hi + 1 - c ≤ n → ∀ b ∈ ipSubnetsFrom W pmin hi c,
      c ≤ b.1 ∧ 2 ^ (W - b.2) ∣ b.1 ∧ b.1 + 2 ^ (W - b.2) ≤ hi + 1 ∧
        pmin ≤ b.2 ∧ (pmin ≤ W → b.2 ≤ W) ∧ (pmin = W → b.2 = W) := by
  intro n
  induction n with
  | zero =>
    intro c hc b hb
    rw [ipSubnetsFrom_nil W pmin hi c (by omega)] at hb
    simp at hb
  | succ n ih =>
    intro c hc b hb
    by_cases h : c ≤ hi
    · rw [ipSubnetsFrom_cons W pmin hi c h] at hb
      have hsz : 0 < 2 ^ (W - blockPrefix W pmin hi c) := Nat.two_pow_pos _
      have hfit := blockSize_le_avail W pmin hi c h
      rcases List.mem_cons.mp hb with rfl | hb
      · refine ⟨le_refl _, blockSize_dvd W pmin hi c, hfit,
          blockPrefix_ge_pmin W pmin hi c, fun hp => blockPrefix_le_W W pmin hi c hp,
          fun hp => ?_⟩
        rw [hp]
        exact blockPrefix_W W hi c
      · have := ih (c + 2 ^ (W - blockPrefix W pmin hi c)) (by omega) b hb
        omega
    · rw [ipSubnetsFrom_nil W pmin hi c (by omega)] at hb
      simp at hb

theorem ipSubnetsFrom_head_start (W pmin hi c : Nat) :
    ∀ b ∈ (ipSubnetsFrom W pmin hi c).head?, b.1 = c := by
  intro b hb
  by_cases h : c ≤ hi
  · rw [ipSubnetsFrom_cons W pmin hi c h] at hb
    simp at hb
    rw [← hb]
  · rw [ipSubnetsFrom_nil W pmin hi c (by omega)] at hb
    simp at hb

theorem ipSubnetsFrom_chain (W pmin hi : Nat) :
    ∀ n c, hi + 1 - c ≤ n →
      (ipSubnetsFrom W pmin hi c).Chain' (fun b d => b.1 + 2 ^ (W - b.2) ≤ d.1) := by
  intro n
  induction n with
  | zero =>
    intro c hc
    rw [ipSubnetsFrom_nil W pmin hi c (by omega)]
    exact List.chain'_nil
  | succ n ih =>
    intro c hc
    by_cases h : c ≤ hi
    · rw [ipSubnetsFrom_cons W pmin hi c h]
      have hsz : 0 < 2 ^ (W - blockPrefix W pmin hi c) := Nat.two_pow_pos _
      refine List.chain'_cons'.mpr ⟨?_, ih _ (by omega)⟩
      intro y hy
      have := ipSubnetsFrom_head_start W pmin hi (c + 2 ^ (W - blockPrefix W pmin hi c)) y hy
      dsimp only
      omega
    · rw [ipSubnetsFrom_nil W pmin hi c (by omega)]
      exact List.chain'_nil

theorem ipSubnetsFrom_length_W (W hi : Nat) :
    ∀ n c, hi + 1 - c ≤ n → (ipSubnetsFrom W W hi c).length = hi + 1 - c := by
  intro n
  induction n with
  | zero =>
    intro c hc
    rw [ipSubnetsFrom_nil W W hi c (by omega)]
    simp
    omega
  | succ n ih =>
    intro c hc
    by_cases h : c ≤ hi
    · rw [ipSubnetsFrom_cons W W hi c h]
      rw [blockPrefix_W W hi c]
      simp only [List.length_cons]
      have : W - W = 0 := by omega
      rw [this, pow_zero]
      rw [ih (c + 1) (by omega)]
      omega
    · rw [ipSubnetsFrom_nil W W hi c (by omega)]
      simp
      omega

/-- Transform a chain through per-element facts. -/
theorem chain'_imp_mem {α : Type} {R S : α → α → Prop} {P : α → Prop} :
    ∀ l : List α, l.Chain' R → (∀ b ∈ l, P b) →
      (∀ a b, P a → P b → R a b → S a b) → l.Chain' S := by
  intro l
  induction l with
  | nil => intro _ _ _; exact List.chain'_nil
  | cons a l ih =>
    intro hc hP himp
    obtain ⟨hhead, htail⟩ := List.chain'_cons'.mp hc
    refine List.chain'_cons'.mpr ⟨?_, ih htail (fun b hb => hP b (List.mem_cons_of_mem _ hb)) himp⟩
    intro y hy
    have hyl : y ∈ l := by
      cases l with
      | nil => simp at hy
      | cons z l => simp at hy; rw [hy]; exact List.mem_cons_self _ _
    exact himp a y (hP a (List.mem_cons_self _ _)) (hP y (List.mem_cons_of_mem _ hyl)) (hhead y hy)

/-- The output blocks of the aggregator are pairwise ordered:
each block ends strictly before the next begins. -/
theorem ipSubnets_pairwise_sep (W pmin lo hi : Nat) :
    (ipSubnets W pmin lo hi).Pairwise (fun b d => b.1 + 2 ^ (W - b.2) ≤ d.1) := by
  haveI : IsTrans (Nat × Nat) (fun b d => b.1 + 2 ^ (W - b.2) ≤ d.1) := by
    refine ⟨fun a b c hab hbc => ?_⟩
    have : 0 < 2 ^ (W - b.2) := Nat.two_pow_pos _
    omega
  exact List.chain'_iff_pairwise.mp (ipSubnetsFrom_chain W pmin hi (hi + 1 - lo) lo (by omega))

/-- C1: for every pair of addresses `lo ≤ hi` of width `W` and every
minimum prefix length `pmin ≤ W`, the SubnetAggregator emits a finite
sequence of blocks in ascending order of network address, with pairwise
disjoint address sets, whose union is exactly the inclusive interval
`[lo, hi]`. -/
theorem subnetAggregator_covers_exactly (W pmin lo hi : Nat)
    (h1 : lo ≤ hi) (h2 : hi < 2 ^ W) (h3 : pmin ≤ W) :
    (∀ x, (∃ b ∈ ipSubnets W pmin lo hi, inBlock W b x) ↔ lo ≤ x ∧ x ≤ hi) ∧
    (ipSubnets W pmin lo hi).Chain' (fun b d => netAddr W b < netAddr W d) ∧
    (ipSubnets W pmin lo hi).Pairwise (blocksDisjoint W) := by
  have hmem := ipSubnetsFrom_mem W pmin hi (hi + 1 - lo) lo (by omega)
  have hsep := ipSubnets_pairwise_sep W pmin lo hi
  refine ⟨ipSubnetsFrom_cover W pmin hi (hi + 1 - lo) lo (by omega), ?_, ?_⟩
  · refine chain'_imp_mem (P := fun b => 2 ^ (W - b.2) ∣ b.1) _
      (ipSubnetsFrom_chain W pmin hi (hi + 1 - lo) lo (by omega))
      (fun b hb => (hmem b hb).2.1) ?_
    intro a b ha hb hR
    have h4 : 0 < 2 ^ (W - a.2) := Nat.two_pow_pos _
    rw [netAddr_of_aligned W a ha, netAddr_of_aligned W b hb]
    omega
  · refine hsep.imp_of_mem ?_
    intro a b ha hb hR
    intro x ⟨hxa, hxb⟩
    rw [inBlock_of_aligned W a x (hmem a ha).2.1] at hxa
    rw [inBlock_of_aligned W b x (hmem b hb).2.1] at hxb
    omega

/-- Witness for C1 at `W = 32`, `lo = 0`, `hi = 5`, `pmin = 0`. -/
theorem subnetAggregator_covers_exactly_witness :
    (0 : Nat) ≤ 5 ∧ (5 : Nat) < 2 ^ 32 ∧ (0 : Nat) ≤ 32 ∧
    ((∀ x, (∃ b ∈ ipSubnets 32 0 0 5, inBlock 32 b x) ↔ 0 ≤ x ∧ x ≤ 5) ∧
     (ipSubnets 32 0 0 5).Chain' (fun b d => netAddr 32 b < netAddr 32 d) ∧
     (ipSubnets 32 0 0 5).Pairwise (blocksDisjoint 32)) :=
  ⟨by decide, by decide, by decide,
    subnetAggregator_covers_exactly 32 0 0 5 (by decide) (by decide) (by decide)⟩

/-! ### Minimality of the aggregator output (claim C2)

Any pairwise-disjoint exact cover of `[lo, hi]` by CIDR blocks whose
prefix lengths are at least `pmin` has at least as many blocks as the
aggregator emits.  The key geometric fact is that two aligned
power-of-two intervals are laminar: if they intersect, the smaller is
contained in the larger. -/

theorem mod_of_aligned (k a x : Nat) (ha : a % 2 ^ k = 0) (h1 : a ≤ x)
    (h2 : x < a + 2 ^ k) : x % 2 ^ k = x - a := by
  have hx : a + (x - a) = x := by omega
  have hlt : x - a < 2 ^ k := by omega
  conv_lhs => rw [← hx]
  rw [Nat.add_mod, ha, Nat.zero_add]
  simp [Nat.mod_eq_of_lt hlt]

/-- Laminarity of aligned power-of-two intervals: if the interval of size
`2 ^ k1` at `a1` and the interval of size `2 ^ k2` at `a2` share the
point `x` and `k1 ≤ k2`, the first is contained in the second. -/
theorem dyadic_laminar (k1 k2 a1 a2 x : Nat) (hk : k1 ≤ k2)
    (h1 : a1 % 2 ^ k1 = 0) (h2 : a2 % 2 ^ k2 = 0)
    (hx1a : a1 ≤ x) (hx1b : x < a1 + 2 ^ k1)
    (hx2a : a2 ≤ x) (hx2b : x < a2 + 2 ^ k2) :
    a2 ≤ a1 ∧ a1 + 2 ^ k1 ≤ a2 + 2 ^ k2 := by
  have hdvd : 2 ^ k1 ∣ 2 ^ k2 := pow_dvd_pow 2 hk
  have hm1 : x % 2 ^ k1 = x - a1 := mod_of_aligned k1 a1 x h1 hx1a hx1b
  have hm2 : x % 2 ^ k2 = x - a2 := mod_of_aligned k2 a2 x h2 hx2a hx2b
  have hr : x % 2 ^ k1 = (x % 2 ^ k2) % 2 ^ k1 := (Nat.mod_mod_of_dvd x hdvd).symm
  have hle : x % 2 ^ k1 ≤ x % 2 ^ k2 := by
    rw [hr]
    exact Nat.mod_le _ _
  refine ⟨by omega, ?_⟩
  obtain ⟨t, ht⟩ := hdvd
  have hsplit : 2 ^ k1 * ((x % 2 ^ k2) / 2 ^ k1) + x % 2 ^ k1 = x % 2 ^ k2 := by
    conv_lhs => rw [hr]
    exact Nat.div_add_mod _ _
  have hdlt : (x % 2 ^ k2) / 2 ^ k1 < t := by
    apply Nat.div_lt_of_lt_mul
    rw [← ht]
    exact Nat.mod_lt x (Nat.two_pow_pos k2)
  have hmul : 2 ^ k1 * ((x % 2 ^ k2) / 2 ^ k1) + 2 ^ k1 ≤ 2 ^ k2 := by
    have hstep : 2 ^ k1 * ((x % 2 ^ k2) / 2 ^ k1 + 1) ≤ 2 ^ k1 * t :=
      Nat.mul_le_mul_left (2 ^ k1) (by omega)
    rw [Nat.mul_succ] at hstep
    rw [← ht] at hstep
    exact hstep
  have final : ∀ P r1 r2 : Nat, P + r1 = r2 → P + 2 ^ k1 ≤ 2 ^ k2 →
      r1 = x - a1 → r2 = x - a2 → a1 + 2 ^ k1 ≤ a2 + 2 ^ k2 := by
    intro P r1 r2 hs hm hmm1 hmm2
    omega
  exact final _ _ _ hsplit hmul hm1 hm2

theorem netAddr_mod (W : Nat) (b : Nat × Nat) :
    netAddr W b % 2 ^ (W - b.2) = 0 := by
  rw [netAddr]
  exact Nat.mul_mod_left _ _

theorem inBlock_iff (W : Nat) (b : Nat × Nat) (x : Nat) :
    inBlock W b x ↔ netAddr W b ≤ x ∧ x < netAddr W b + 2 ^ (W - b.2) := by
  have := Nat.two_pow_pos (W - b.2)
  rw [inBlock, bcastAddr]
  omega

theorem blocksDisjoint_symm (W : Nat) : Symmetric (blocksDisjoint W) := by
  intro a b hab x hx
  exact hab x ⟨hx.2, hx.1⟩

theorem ipSubnets_minimal_aux (W pmin hi : Nat) (hW : hi < 2 ^ W) (hp : pmin ≤ W) :
    ∀ n c, hi + 1 - c ≤ n →
      ∀ L : List (Nat × Nat),
        (∀ b ∈ L, pmin ≤ b.2 ∧ b.2 ≤ W) →
        L.Pairwise (blocksDisjoint W) →
        (∀ x, (∃ b ∈ L, inBlock W b x) ↔ c ≤ x ∧ x ≤ hi) →
        (ipSubnetsFrom W pmin hi c).length ≤ L.length := by
  intro n
  induction n with
  | zero =>
    intro c hc L _ _ _
    rw [ipSubnetsFrom_nil W pmin hi c (by omega)]
    simp
  | succ n ih =>
    intro c hc L hwf hdisj hcov
    by_cases hchi : c ≤ hi
    case neg =>
      rw [ipSubnetsFrom_nil W pmin hi c (by omega)]
      simp
    case pos =>
    obtain ⟨B, hBL, hBx⟩ := (hcov c).mpr ⟨le_refl c, hchi⟩
    have hG_div : 2 ^ (W - blockPrefix W pmin hi c) ∣ c := blockSize_dvd W pmin hi c
    have hG_fit : c + 2 ^ (W - blockPrefix W pmin hi c) ≤ hi + 1 :=
      blockSize_le_avail W pmin hi c hchi
    have hG_mod : c % 2 ^ (W - blockPrefix W pmin hi c) = 0 := Nat.mod_eq_zero_of_dvd hG_div
    have hs_pos : 0 < 2 ^ (W - blockPrefix W pmin hi c) := Nat.two_pow_pos _
    -- the span of any block of the cover lies inside [c, hi]
    have hspan : ∀ b ∈ L, ∀ y, inBlock W b y → c ≤ y ∧ y ≤ hi :=
      fun b hb y hy => (hcov y).mp ⟨b, hb, hy⟩
    have hself : ∀ b : Nat × Nat, inBlock W b (netAddr W b) := by
      intro b
      rw [inBlock_iff]
      have := Nat.two_pow_pos (W - b.2)
      omega
    -- the block containing the cursor starts exactly at the cursor
    have hBstart : netAddr W B = c := by
      have h1 := (inBlock_iff W B c).mp hBx
      have h2 := hspan B hBL (netAddr W B) (hself B)
      omega
    -- maximality of the greedy block
    have hB_exp : W - B.2 ≤ W - blockPrefix W pmin hi c := by
      have hwfB := hwf B hBL
      have htz : W - B.2 ≤ trailingZeros W c := by
        refine le_trailingZeros W _ c (by omega) ?_
        rw [← hBstart, netAddr]
        exact dvd_mul_left _ _
      have hlog : W - B.2 ≤ Nat.log2 (hi + 1 - c) := by
        rw [Nat.le_log2 (by omega)]
        have hbc := hspan B hBL (bcastAddr W B) (by
          rw [inBlock_iff]
          have := Nat.two_pow_pos (W - B.2)
          rw [bcastAddr]
          omega)
        rw [bcastAddr, hBstart] at hbc
        have := Nat.two_pow_pos (W - B.2)
        omega
      have hnbb_le : Nat.log2 (hi + 1 - c) ≤ W := by
        have h1 : hi + 1 - c ≠ 0 := by omega
        have := (Nat.log2_lt h1).mpr (show hi + 1 - c < 2 ^ (W + 1) by
          have : 2 ^ W < 2 ^ (W + 1) := Nat.pow_lt_pow_right (by omega) (by omega)
          omega)
        omega
      rw [blockPrefix]
      omega
    -- split the cover into the blocks inside the greedy span and the rest
    set inG : Nat × Nat → Bool := fun b => decide (c ≤ netAddr W b ∧
      netAddr W b + 2 ^ (W - b.2) ≤ c + 2 ^ (W - blockPrefix W pmin hi c)) with hinG
    -- B is inside the greedy span
    have hBin : B ∈ L.filter inG := by
      rw [List.mem_filter]
      refine ⟨hBL, ?_⟩
      rw [hinG]
      simp only [decide_eq_true_eq]
      constructor
      · omega
      · have : 2 ^ (W - B.2) ≤ 2 ^ (W - blockPrefix W pmin hi c) :=
          Nat.pow_le_pow_right (by omega) hB_exp
        omega
    -- the remaining blocks exactly cover the rest of the interval
    have houtcov : ∀ x, (∃ b ∈ L.filter (fun b => !inG b), inBlock W b x) ↔
        c + 2 ^ (W - blockPrefix W pmin hi c) ≤ x ∧ x ≤ hi := by
      intro x
      constructor
      · rintro ⟨b, hb, hbx⟩
        rw [List.mem_filter] at hb
        obtain ⟨hbL, hbn⟩ := hb
        have hbx' := (inBlock_iff W b x).mp hbx
        have hxr := hspan b hbL x hbx
        by_cases hlt : x < c + 2 ^ (W - blockPrefix W pmin hi c)
        · exfalso
          by_cases hkb : W - b.2 ≤ W - blockPrefix W pmin hi c
          · -- the block would sit inside the greedy span
            have hlam := dyadic_laminar (W - b.2) (W - blockPrefix W pmin hi c)
              (netAddr W b) c x hkb (netAddr_mod W b) hG_mod
              hbx'.1 hbx'.2 (by omega) (by omega)
            rw [hinG] at hbn
            simp only [Bool.not_eq_true', decide_eq_false_iff_not] at hbn
            exact hbn ⟨by omega, by omega⟩
          · -- the greedy span would sit inside the block, which then
            -- contains the cursor, clashing with B
            have hlam := dyadic_laminar (W - blockPrefix W pmin hi c) (W - b.2)
              c (netAddr W b) x (by omega) hG_mod (netAddr_mod W b)
              (by omega) (by omega) hbx'.1 hbx'.2
            have hbc : inBlock W b c := by
              rw [inBlock_iff]
              omega
            by_cases hbB : b = B
            · rw [hbB] at hkb
              omega
            · exact hdisj.forall (blocksDisjoint_symm W) hbL hBL hbB c ⟨hbc, hBx⟩
        · omega
      · rintro ⟨h1, h2⟩
        obtain ⟨b, hbL, hbx⟩ := (hcov x).mpr ⟨by omega, h2⟩
        refine ⟨b, ?_, hbx⟩
        rw [List.mem_filter]
        refine ⟨hbL, ?_⟩
        rw [hinG]
        simp only [Bool.not_eq_true', decide_eq_false_iff_not]
        intro ⟨hg1, hg2⟩
        have := (inBlock_iff W b x).mp hbx
        omega
    -- apply the induction hypothesis to the remaining cover
    have hih := ih (c + 2 ^ (W - blockPrefix W pmin hi c)) (by omega)
      (L.filter (fun b => !inG b))
      (fun b hb => hwf b (List.mem_filter.mp hb).1)
      (hdisj.sublist (List.filter_sublist L))
      houtcov
    have hsum : L.length =
        (L.filter inG).length + (L.filter (fun b => !inG b)).length :=
      List.length_eq_length_filter_add inG
    rw [ipSubnetsFrom_cons W pmin hi c hchi]
    simp only [List.length_cons]
    have hpos : 0 < (L.filter inG).length := List.length_pos_of_mem hBin
    omega

/-- C2: every block emitted by the SubnetAggregator has prefix length at
least `pmin`; the emitted sequence has the fewest possible blocks among
all pairwise-disjoint exact covers of `[lo, hi]` by CIDR blocks of
prefix length at least `pmin`; and `pmin = W` yields exactly
`hi - lo + 1` single-address blocks. -/
theorem subnetAggregator_minimal (W pmin lo hi : Nat)
    (h1 : lo ≤ hi) (h2 : hi < 2 ^ W) (h3 : pmin ≤ W) :
    (∀ b ∈ ipSubnets W pmin lo hi, pmin ≤ b.2) ∧
    (∀ L : List (Nat × Nat),
       (∀ b ∈ L, pmin ≤ b.2 ∧ b.2 ≤ W) →
       L.Pairwise (blocksDisjoint W) →
       (∀ x, (∃ b ∈ L, inBlock W b x) ↔ lo ≤ x ∧ x ≤ hi) →
       (ipSubnets W pmin lo hi).length ≤ L.length) ∧
    (ipSubnets W W lo hi).length = hi - lo + 1 ∧
    (∀ b ∈ ipSubnets W W lo hi, b.2 = W) := by
  refine ⟨?_, ?_, ?_, ?_⟩
  · intro b hb
    exact (ipSubnetsFrom_mem W pmin hi (hi + 1 - lo) lo (by omega) b hb).2.2.2.1
  · intro L hwf hd hcov
    exact ipSubnets_minimal_aux W pmin hi h2 h3 (hi + 1 - lo) lo (by omega) L hwf hd hcov
  · have := ipSubnetsFrom_length_W W hi (hi + 1 - lo) lo (by omega)
    rw [ipSubnets]
    omega
  · intro b hb
    exact (ipSubnetsFrom_mem W W hi (hi + 1 - lo) lo (by omega) b hb).2.2.2.2.2 rfl

/-- Witness for C2 at `W = 32`, `pmin = 31`, `lo = 0`, `hi = 5`. -/
theorem subnetAggregator_minimal_witness :
    (0 : Nat) ≤ 5 ∧ (5 : Nat) < 2 ^ 32 ∧ (31 : Nat) ≤ 32 ∧
    ((∀ b ∈ ipSubnets 32 31 0 5, 31 ≤ b.2) ∧
     (∀ L : List (Nat × Nat),
        (∀ b ∈ L, 31 ≤ b.2 ∧ b.2 ≤ 32) →
        L.Pairwise (blocksDisjoint 32) →
        (∀ x, (∃ b ∈ L, inBlock 32 b x) ↔ 0 ≤ x ∧ x ≤ 5) →
        (ipSubnets 32 31 0 5).length ≤ L.length) ∧
     (ipSubnets 32 32 0 5).length = 5 - 0 + 1 ∧
     (∀ b ∈ ipSubnets 32 32 0 5, b.2 = 32)) :=
  ⟨by decide, by decide, by decide,
    subnetAggregator_minimal 32 31 0 5 (by decide) (by decide) (by decide)⟩

/-! ## Prefix/mask conversion (spec section 4.1) -/

/-- Modelled from the spec, section 4.1: `prefix_to_mask` returns the
mask with the top `p` bits set to 1 and the remaining `W - p` bits 0:
`p` one-bits shifted left by `W - p`. -/
def prefix_to_mask (W p : Nat) : Nat := (2 ^ p - 1) <<< (W - p)

/-- Population count: the number of set bits of a natural number. -/
def popcount (n : Nat) : Nat :=
  if h : n = 0 then 0
  else popcount (n / 2) + n % 2
termination_by n
decreasing_by
  exact Nat.div_lt_self (Nat.pos_of_ne_zero h) (by omega)

/-- The `W`-bit complement `NOT m`: XOR with the all-ones word. -/
def maskInv (W m : Nat) : Nat := m ^^^ (2 ^ W - 1)

/-- Modelled from the spec, section 4.1: `mask_to_prefix` (the crate's
`ipv4_mask_to_prefix` / `ipv6_mask_to_prefix`): with `inv = NOT m`, the
mask is valid iff `inv AND (inv + 1) == 0`, in which case the prefix
length is `W - popcount(inv)`; otherwise it fails with
`InvalidPrefixMask`. -/
def mask_to_prefix (W m : Nat) : Except IpnetError Nat :=
  if Nat.land (maskInv W m) (maskInv W m + 1) = 0 then
    Except.ok (W - popcount (maskInv W m))
  else Except.error IpnetError.invalidPrefixMask

theorem popcount_eq (n : Nat) :
    popcount n = if n = 0 then 0 else popcount (n / 2) + n % 2 := by
  rw [popcount]
  split <;> simp_all

theorem popcount_two_pow_sub_one (k : Nat) : popcount (2 ^ k - 1) = k := by
  induction k with
  | zero =>
    rw [popcount_eq]
    simp
  | succ k ih =>
    have hp : 0 < 2 ^ k := Nat.two_pow_pos k
    have hs : 2 ^ (k + 1) = 2 ^ k * 2 := pow_succ 2 k
    rw [popcount_eq]
    have h0 : ¬ (2 ^ (k + 1) - 1 = 0) := by omega
    simp only [h0, if_false]
    have hdiv : (2 ^ (k + 1) - 1) / 2 = 2 ^ k - 1 := by omega
    have hmod : (2 ^ (k + 1) - 1) % 2 = 1 := by omega
    rw [hdiv, hmod, ih]

theorem maskInv_testBit (W m i : Nat) (hm : m < 2 ^ W) :
    (maskInv W m).testBit i = if i < W then !(m.testBit i) else false := by
  rw [maskInv, Nat.testBit_xor, Nat.testBit_two_pow_sub_one]
  by_cases h : i < W
  · simp [h]
  · have hW : 2 ^ W ≤ 2 ^ i := Nat.pow_le_pow_right (by omega) (by omega)
    rw [Nat.testBit_lt_two_pow (by omega)]
    simp [h]

theorem maskInv_lt (W m : Nat) (hm : m < 2 ^ W) : maskInv W m < 2 ^ W := by
  rw [maskInv]
  exact Nat.xor_lt_two_pow hm (by have := Nat.two_pow_pos W; omega)

theorem land_eq_zero_iff (x y : Nat) :
    Nat.land x y = 0 ↔ ∀ i, ¬(x.testBit i = true ∧ y.testBit i = true) := by
  constructor
  · intro h i hxy
    have hbit : (Nat.land x y).testBit i = (x.testBit i && y.testBit i) :=
      Nat.testBit_land x y i
    rw [h, Nat.zero_testBit, hxy.1, hxy.2] at hbit
    simp at hbit
  · intro h
    apply Nat.eq_of_testBit_eq
    intro i
    show (x &&& y).testBit i = Nat.testBit 0 i
    rw [Nat.testBit_land, Nat.zero_testBit]
    have := h i
    cases hx : x.testBit i <;> cases hy : y.testBit i <;> simp_all

theorem testBit_log2 (n : Nat) (hn : n ≠ 0) : n.testBit (Nat.log2 n) = true := by
  have h1 : 2 ^ Nat.log2 n ≤ n := Nat.log2_self_le hn
  have h2 : n < 2 ^ (Nat.log2 n + 1) := Nat.lt_log2_self
  have h3 : 2 ^ (Nat.log2 n + 1) = 2 ^ Nat.log2 n * 2 := pow_succ 2 _
  have hpos : 0 < 2 ^ Nat.log2 n := Nat.two_pow_pos _
  rw [Nat.testBit_to_div_mod]
  have hlo : 1 ≤ n / 2 ^ Nat.log2 n := (Nat.one_le_div_iff hpos).mpr h1
  have hhi : n / 2 ^ Nat.log2 n < 2 := Nat.div_lt_of_lt_mul (by omega)
  have hdiv : n / 2 ^ Nat.log2 n = 1 := by omega
  rw [hdiv]
  rfl

theorem land_succ_eq_zero_iff (n : Nat) :
    Nat.land n (n + 1) = 0 ↔ ∃ k, n = 2 ^ k - 1 := by
  induction n using Nat.strong_induction_on with
  | _ n ih =>
    by_cases h0 : n = 0
    · subst h0
      constructor
      · intro _
        exact ⟨0, by norm_num⟩
      · intro _
        decide
    by_cases hpar : n % 2 = 1
    · -- odd case: reduce to n / 2
      have hm : n = 2 * (n / 2) + 1 := by omega
      have hrec := ih (n / 2) (Nat.div_lt_self (Nat.pos_of_ne_zero h0) (by omega))
      have hhalf : (n + 1) / 2 = n / 2 + 1 := by omega
      constructor
      · intro h
        obtain ⟨k, hk⟩ := hrec.mp (by
          rw [land_eq_zero_iff] at h ⊢
          intro i hi
          refine h (i + 1) ?_
          rw [Nat.testBit_succ, Nat.testBit_succ, hhalf]
          exact hi)
        refine ⟨k + 1, ?_⟩
        have : 2 ^ (k + 1) = 2 ^ k * 2 := pow_succ 2 k
        have := Nat.two_pow_pos k
        omega
      · rintro ⟨k, hk⟩
        have hkz : k ≠ 0 := by
          intro h
          subst h
          simp at hk
          omega
        obtain ⟨k', rfl⟩ : ∃ k', k = k' + 1 := ⟨k - 1, by omega⟩
        have hhk : 2 ^ (k' + 1) = 2 ^ k' * 2 := pow_succ 2 k'
        have hp := Nat.two_pow_pos k'
        have hm' : n / 2 = 2 ^ k' - 1 := by omega
        have hland := hrec.mpr ⟨k', hm'⟩
        rw [land_eq_zero_iff] at hland ⊢
        intro i hi
        match i with
        | 0 =>
          rw [Nat.testBit_zero, Nat.testBit_zero] at hi
          have : (n + 1) % 2 = 0 := by omega
          simp [this] at hi
        | i + 1 =>
          rw [Nat.testBit_succ, Nat.testBit_succ, hhalf] at hi
          exact hland i hi
    · -- even nonzero case: both sides are false
      have hm : n = 2 * (n / 2) := by omega
      have hmz : n / 2 ≠ 0 := by omega
      constructor
      · intro h
        exfalso
        rw [land_eq_zero_iff] at h
        refine h (Nat.log2 (n / 2) + 1) ?_
        have hhalf : (n + 1) / 2 = n / 2 := by omega
        rw [Nat.testBit_succ, Nat.testBit_succ, hhalf]
        exact ⟨testBit_log2 _ hmz, testBit_log2 _ hmz⟩
      · rintro ⟨k, hk⟩
        exfalso
        match k with
        | 0 =>
          simp at hk
          omega
        | k + 1 =>
          have : 2 ^ (k + 1) = 2 ^ k * 2 := pow_succ 2 k
          have := Nat.two_pow_pos k
          omega

theorem eq_two_pow_sub_one_iff (n : Nat) :
    (∃ k, n = 2 ^ k - 1) ↔
      ∀ i j, j < i → n.testBit i = true → n.testBit j = true := by
  constructor
  · rintro ⟨k, rfl⟩ i j hji hi
    rw [Nat.testBit_two_pow_sub_one] at hi ⊢
    simp only [decide_eq_true_eq] at hi ⊢
    omega
  · intro h
    by_cases h0 : n = 0
    · exact ⟨0, by simp [h0]⟩
    refine ⟨Nat.log2 n + 1, ?_⟩
    apply Nat.eq_of_testBit_eq
    intro i
    rw [Nat.testBit_two_pow_sub_one]
    by_cases hi : i < Nat.log2 n + 1
    · rw [decide_eq_true hi]
      rcases Nat.lt_or_ge i (Nat.log2 n) with hlt | hge
      · exact h (Nat.log2 n) i hlt (testBit_log2 n h0)
      · have : i = Nat.log2 n := by omega
        rw [this]
        exact testBit_log2 n h0
    · rw [decide_eq_false hi]
      have h2 : n < 2 ^ i := by
        have := Nat.lt_log2_self (n := n)
        have hle : 2 ^ (Nat.log2 n + 1) ≤ 2 ^ i := Nat.pow_le_pow_right (by omega) (by omega)
        omega
      exact Nat.testBit_lt_two_pow h2

theorem maskInv_prefix_to_mask (W p : Nat) (hp : p ≤ W) :
    maskInv W (prefix_to_mask W p) = 2 ^ (W - p) - 1 := by
  apply Nat.eq_of_testBit_eq
  intro i
  rw [maskInv, Nat.testBit_xor, prefix_to_mask]
  simp only [Nat.testBit_shiftLeft, Nat.testBit_two_pow_sub_one]
  by_cases h1 : i < W - p
  · have h2 : i < W := by omega
    have h3 : ¬ (i ≥ W - p) := by omega
    simp [h1, h2, h3]
  · by_cases h2 : i < W
    · have h3 : i ≥ W - p := by omega
      have h4 : i - (W - p) < p := by omega
      simp [h1, h2, h3, h4]
    · have h3 : ¬ (i - (W - p) < p) := by omega
      simp [h1, h2, h3]

/-- C3: round-trip: for every prefix length `p ≤ W`,
`mask_to_prefix (prefix_to_mask p)` succeeds and returns exactly `p`. -/
theorem mask_roundtrip (W p : Nat) (hp : p ≤ W) :
    mask_to_prefix W (prefix_to_mask W p) = Except.ok p := by
  rw [ mask_to_prefix, maskInv_prefix_to_mask W p hp]
  have hp2 : 0 < 2 ^ (W - p) := Nat.two_pow_pos _
  have hplus : 2 ^ (W - p) - 1 + 1 = 2 ^ (W - p) := by omega
  rw [hplus]
  have hland : Nat.land (2 ^ (W - p) - 1) (2 ^ (W - p)) = 0 := by
    rw [land_eq_zero_iff]
    intro i hi
    obtain ⟨hi1, hi2⟩ := hi
    rw [Nat.testBit_two_pow_sub_one] at hi1
    rw [Nat.testBit_two_pow] at hi2
    simp only [decide_eq_true_eq] at hi1 hi2
    omega
  rw [hland, if_pos rfl, popcount_two_pow_sub_one]
  have hWp : W - (W - p) = p := by omega
  rw [hWp]

/-- Witness for C3 at `W = 32`, `p = 24`. -/
theorem mask_roundtrip_witness :
    (24 : Nat) ≤ 32 ∧ mask_to_prefix 32 (prefix_to_mask 32 24) = Except.ok 24 :=
  ⟨by decide, mask_roundtrip 32 24 (by decide)⟩

/-- C4: for every `W`-bit value `m`, `mask_to_prefix` returns
`Ok (W - popcount (NOT m))` when `(NOT m) AND ((NOT m) + 1) == 0` and
fails with `InvalidPrefixMask` in every other case; it fails exactly when
some 0-bit of `m` is followed, toward the least-significant end, by a
1-bit. -/
theorem mask_to_prefix_spec (W m : Nat) (hm : m < 2 ^ W) :
    (Nat.land (maskInv W m) (maskInv W m + 1) = 0 →
       mask_to_prefix W m = Except.ok (W - popcount (maskInv W m))) ∧
    (Nat.land (maskInv W m) (maskInv W m + 1) ≠ 0 →
       mask_to_prefix W m = Except.error IpnetError.invalidPrefixMask) ∧
    ( mask_to_prefix W m = Except.error IpnetError.invalidPrefixMask ↔
       ∃ i j, j < i ∧ i < W ∧ m.testBit i = false ∧ m.testBit j = true) := by
  refine ⟨?_, ?_, ?_⟩
  · intro h
    rw [ mask_to_prefix, if_pos h]
  · intro h
    rw [ mask_to_prefix, if_neg h]
  · rw [ mask_to_prefix]
    by_cases h : Nat.land (maskInv W m) (maskInv W m + 1) = 0
    · rw [if_pos h]
      constructor
      · intro hcontra
        exact Except.noConfusion hcontra
      · rintro ⟨i, j, hji, hiW, hmi, hmj⟩
        exfalso
        obtain ⟨k, hk⟩ := (land_succ_eq_zero_iff _).mp h
        have hdc := (eq_two_pow_sub_one_iff (maskInv W m)).mp ⟨k, hk⟩
        have hbi : (maskInv W m).testBit i = true := by
          rw [maskInv_testBit W m i hm, if_pos hiW, hmi]
          rfl
        have hbj := hdc i j hji hbi
        rw [maskInv_testBit W m j hm, if_pos (by omega : j < W), hmj] at hbj
        simp at hbj
    · rw [if_neg h]
      constructor
      · intro _
        have hne : ¬ ∃ k, maskInv W m = 2 ^ k - 1 :=
          fun hex => h ((land_succ_eq_zero_iff _).mpr hex)
        have hnd : ¬ ∀ i j, j < i → (maskInv W m).testBit i = true →
            (maskInv W m).testBit j = true :=
          fun hall => hne ((eq_two_pow_sub_one_iff _).mpr hall)
        push_neg at hnd
        obtain ⟨i, j, hji, hbi, hbj⟩ := hnd
        have hiW : i < W := by
          by_contra hiW
          rw [maskInv_testBit W m i hm, if_neg (by omega)] at hbi
          simp at hbi
        refine ⟨i, j, hji, hiW, ?_, ?_⟩
        · rw [maskInv_testBit W m i hm, if_pos hiW] at hbi
          cases hmb : m.testBit i
          · rfl
          · rw [hmb] at hbi
            simp at hbi
        · rw [maskInv_testBit W m j hm, if_pos (by omega : j < W)] at hbj
          cases hmb : m.testBit j
          · rw [hmb] at hbj
            simp at hbj
          · rfl
      · intro _
        rfl

/-- Witness for C4 at `W = 32`, `m = 0xFFFFFF01` (the spec's example mask
`255.255.255.1`). -/
theorem mask_to_prefix_spec_witness :
    (4294967041 : Nat) < 2 ^ 32 ∧
    ((Nat.land (maskInv 32 4294967041) (maskInv 32 4294967041 + 1) = 0 →
        mask_to_prefix 32 4294967041 =
          Except.ok (32 - popcount (maskInv 32 4294967041))) ∧
     (Nat.land (maskInv 32 4294967041) (maskInv 32 4294967041 + 1) ≠ 0 →
        mask_to_prefix 32 4294967041 =
          Except.error IpnetError.invalidPrefixMask) ∧
     ( mask_to_prefix 32 4294967041 = Except.error IpnetError.invalidPrefixMask ↔
        ∃ i j, j < i ∧ i < 32 ∧ Nat.testBit 4294967041 i = false ∧
          Nat.testBit 4294967041 j = true)) :=
  ⟨by decide, mask_to_prefix_spec 32 4294967041 (by decide)⟩

/-! ## The range iterator (spec sections 4.2 and 9) -/

/-- Modelled from the spec, sections 4.2 and 9: the explicit state of the
`IpAddrRange`/`Ipv4AddrRange`/`Ipv6AddrRange` iterator: current position,
inclusive upper bound, and a finished flag. -/
structure RangeIter where
  cur : Nat
  stop : Nat
  fin : Bool
deriving DecidableEq

/-- Modelled from the spec, section 4.2: produce the next address or
signal the end.  The top boundary is checked before incrementing: when
the current position equals the bound, the address is produced and the
iterator is marked finished without incrementing, so the position is
never incremented past the bound and never wraps. -/
def rangeNext (s : RangeIter) : Option (Nat × RangeIter) :=
  if s.fin then none
  else if s.cur < s.stop then some (s.cur, ⟨s.cur + 1, s.stop, false⟩)
  else if s.cur = s.stop then some (s.cur, ⟨s.cur, s.stop, true⟩)
  else none

/-- The full address list produced by pulling `rangeNext` to exhaustion. -/
def runRange : RangeIter → List Nat
  | ⟨c, stop, true⟩ => []
  | ⟨c, stop, false⟩ =>
    if c < stop then c :: runRange ⟨c + 1, stop, false⟩
    else if c = stop then c :: runRange ⟨c, stop, true⟩
    else []
termination_by s => (if s.fin then 0 else s.stop + 2 - s.cur)
decreasing_by
  · simp only [↓reduceIte]
    omega
  · simp only [↓reduceIte]
    omega

/-- `runRange` is exactly the iteration of the step function
`rangeNext`. -/
theorem runRange_is_iteration (s : RangeIter) :
    runRange s = (match rangeNext s with
      | none => []
      | some (a, t) => a :: runRange t) := by
  obtain ⟨c, stop, fin⟩ := s
  cases fin
  · rw [rangeNext]
    simp only [Bool.false_eq_true, if_false]
    by_cases h1 : c < stop
    · rw [runRange]
      simp [h1]
    · by_cases h2 : c = stop
      · rw [runRange]
        simp [h1, h2]
      · rw [runRange]
        simp [h1, h2]
  · rw [rangeNext]
    simp only [if_true]
    rw [runRange]

theorem runRange_fin (c stop : Nat) : runRange ⟨c, stop, true⟩ = [] := by
  rw [runRange]

/-- The iterator visits exactly the interval `[c, stop]`, in order. -/
theorem runRange_eq_range' (stop : Nat) :
    ∀ n c, stop + 1 - c ≤ n → c ≤ stop →
      runRange ⟨c, stop, false⟩ = List.range' c (stop + 1 - c) := by
  intro n
  induction n with
  | zero => intro c hc h; omega
  | succ n ih =>
    intro c hc h
    by_cases h1 : c < stop
    · rw [runRange]
      simp only [h1, if_true]
      rw [ih (c + 1) (by omega) (by omega)]
      have hn : stop + 1 - c = (stop - c) + 1 := by omega
      rw [hn]
      have : List.range' c (stop - c + 1) = c :: List.range' (c + 1) (stop - c) :=
        List.range'_succ c (stop - c) 1
      rw [this]
      have : stop + 1 - (c + 1) = stop - c := by omega
      rw [this]
    · have h2 : c = stop := by omega
      have h3 : stop + 1 - c = 1 := by omega
      rw [runRange, h3]
      simp [h1, h2, runRange_fin, List.range']

/-- Reachability of iterator states through `rangeNext` steps. -/
def rangeReach (s t : RangeIter) : Prop :=
  Relation.ReflTransGen (fun u v => ∃ a, rangeNext u = some (a, v)) s t

/-- Every state reachable from a well-formed initial state keeps its
position inside `[lo, hi]`: the position is never incremented past the
bound and never wraps around to a smaller address. -/
theorem rangeReach_inv (lo hi : Nat) (h1 : lo ≤ hi) :
    ∀ t, rangeReach ⟨lo, hi, false⟩ t → lo ≤ t.cur ∧ t.cur ≤ hi ∧ t.stop = hi := by
  intro t ht
  induction ht with
  | refl => exact ⟨le_refl _, h1, rfl⟩
  | tail hst step ih =>
    obtain ⟨a, ha⟩ := step
    rw [rangeNext] at ha
    split at ha
    · exact Option.noConfusion ha
    · split at ha
      · obtain ⟨rfl, rfl⟩ := Prod.mk.injEq .. ▸ (Option.some.injEq .. ▸ ha)
        simp only at ih ⊢
        omega
      · split at ha
        · obtain ⟨rfl, rfl⟩ := Prod.mk.injEq .. ▸ (Option.some.injEq .. ▸ ha)
          simp only at ih ⊢
          omega
        · exact Option.noConfusion ha

/-- C7: for every range iterator with inclusive bounds `lo ≤ hi`
(including `hi` equal to the maximum representable address), iteration
yields each address from `lo` to `hi` exactly once, in ascending order,
and then terminates; and every reachable iterator state keeps its
position between `lo` and `hi < 2 ^ W`, so the position is never
incremented past the maximum representable address and the iterator
never wraps around to address 0. -/
theorem rangeIterator_exact (W lo hi : Nat) (h1 : lo ≤ hi) (h2 : hi < 2 ^ W) :
    runRange ⟨lo, hi, false⟩ = List.range' lo (hi + 1 - lo) ∧
    (runRange ⟨lo, hi, false⟩).Nodup ∧
    (∀ x, x ∈ runRange ⟨lo, hi, false⟩ ↔ lo ≤ x ∧ x ≤ hi) ∧
    (∀ t, rangeReach ⟨lo, hi, false⟩ t → lo ≤ t.cur ∧ t.cur < 2 ^ W) := by
  have heq := runRange_eq_range' hi (hi + 1 - lo) lo (le_refl _) h1
  refine ⟨heq, ?_, ?_, ?_⟩
  · rw [heq]
    exact List.nodup_range' _ _
  · intro x
    rw [heq, List.mem_range'_1]
    omega
  · intro t ht
    have := rangeReach_inv lo hi h1 t ht
    omega

/-- Witness for C7 at `W = 32` with `hi` the maximum 32-bit address. -/
theorem rangeIterator_exact_witness :
    (4294967290 : Nat) ≤ 4294967295 ∧ (4294967295 : Nat) < 2 ^ 32 ∧
    (runRange ⟨4294967290, 4294967295, false⟩ =
       List.range' 4294967290 (4294967295 + 1 - 4294967290) ∧
     (runRange ⟨4294967290, 4294967295, false⟩).Nodup ∧
     (∀ x, x ∈ runRange ⟨4294967290, 4294967295, false⟩ ↔
        4294967290 ≤ x ∧ x ≤ 4294967295) ∧
     (∀ t, rangeReach ⟨4294967290, 4294967295, false⟩ t →
        4294967290 ≤ t.cur ∧ t.cur < 2 ^ 32)) :=
  ⟨by decide, by decide,
    rangeIterator_exact 32 4294967290 4294967295 (by decide) (by decide)⟩

theorem runRange_mem (lo hi : Nat) (h : lo ≤ hi) (x : Nat) :
    x ∈ runRange ⟨lo, hi, false⟩ ↔ lo ≤ x ∧ x ≤ hi := by
  rw [runRange_eq_range' hi (hi + 1 - lo) lo (le_refl _) h, List.mem_range'_1]
  omega

/-! ## Host enumeration (spec section 4.2) -/

/-- Modelled from the spec, section 4.2 host-enumeration mode (the
`hosts()` methods): for the 32-bit family the network and broadcast
addresses are excluded when the prefix length is at most 30; for prefix
lengths 31 and 32 every address in the block is returned unexcluded. -/
def hostsV4 (b : Nat × Nat) : List Nat :=
  if b.2 ≤ 30 then runRange ⟨netAddr 32 b + 1, bcastAddr 32 b - 1, false⟩
  else runRange ⟨netAddr 32 b, bcastAddr 32 b, false⟩

/-- Modelled from the spec, section 4.2: the 128-bit family never
excludes the endpoints. -/
def hostsV6 (b : Nat × Nat) : List Nat :=
  runRange ⟨netAddr 128 b, bcastAddr 128 b, false⟩

/-- C6: 32-bit host iteration with prefix length at most 30 yields
exactly the addresses strictly between the network and broadcast
addresses (a `/30` yields exactly 2 addresses), prefix lengths 31 and 32
yield every address of the block, and 128-bit host iteration never
excludes the endpoints. -/
theorem hosts_endpoint_exclusion (a p : Nat) (ha : a < 2 ^ 32) (hp : p ≤ 32) :
    (p ≤ 30 → ∀ x, x ∈ hostsV4 (a, p) ↔
       netAddr 32 (a, p) < x ∧ x < bcastAddr 32 (a, p)) ∧
    (31 ≤ p → ∀ x, x ∈ hostsV4 (a, p) ↔
       netAddr 32 (a, p) ≤ x ∧ x ≤ bcastAddr 32 (a, p)) ∧
    (p = 30 → (hostsV4 (a, p)).length = 2) ∧
    (∀ a6 p6 x : Nat, x ∈ hostsV6 (a6, p6) ↔
       netAddr 128 (a6, p6) ≤ x ∧ x ≤ bcastAddr 128 (a6, p6)) := by
  refine ⟨?_, ?_, ?_, ?_⟩
  · intro hple x
    have hsz : (4 : Nat) ≤ 2 ^ (32 - (a, p).2) := by
      have h2 : (2 : Nat) ^ 2 ≤ 2 ^ (32 - (a, p).2) :=
        Nat.pow_le_pow_right (by omega) (by simp only; omega)
      omega
    have hb : bcastAddr 32 (a, p) = netAddr 32 (a, p) + (2 ^ (32 - (a, p).2) - 1) := by
      rw [bcastAddr]
    rw [hostsV4, if_pos (by simp only; omega)]
    rw [runRange_mem _ _ (by omega) x]
    omega
  · intro hple x
    have hsz : (1 : Nat) ≤ 2 ^ (32 - (a, p).2) := Nat.two_pow_pos _
    have hb : bcastAddr 32 (a, p) = netAddr 32 (a, p) + (2 ^ (32 - (a, p).2) - 1) := by
      rw [bcastAddr]
    rw [hostsV4, if_neg (by simp only; omega)]
    rw [runRange_mem _ _ (by omega) x]
  · intro hp30
    subst hp30
    have hsz : (2 : Nat) ^ (32 - (a, 30).2) = 4 := by norm_num
    have hb : bcastAddr 32 (a, 30) = netAddr 32 (a, 30) + (2 ^ (32 - (a, 30).2) - 1) := by
      rw [bcastAddr]
    rw [hostsV4, if_pos (by norm_num)]
    rw [runRange_eq_range' _ _ _ (le_refl _) (by omega), List.length_range']
    omega
  · intro a6 p6 x
    have hsz : (1 : Nat) ≤ 2 ^ (128 - (a6, p6).2) := Nat.two_pow_pos _
    have hb : bcastAddr 128 (a6, p6) =
        netAddr 128 (a6, p6) + (2 ^ (128 - (a6, p6).2) - 1) := by
      rw [bcastAddr]
    rw [hostsV6, runRange_mem _ _ (by omega) x]

/-- Witness for C6 at the network `192.168.0.0/30`. -/
theorem hosts_endpoint_exclusion_witness :
    (3232235520 : Nat) < 2 ^ 32 ∧ (30 : Nat) ≤ 32 ∧
    ((30 ≤ 30 → ∀ x, x ∈ hostsV4 (3232235520, 30) ↔
        netAddr 32 (3232235520, 30) < x ∧ x < bcastAddr 32 (3232235520, 30)) ∧
     (31 ≤ 30 → ∀ x, x ∈ hostsV4 (3232235520, 30) ↔
        netAddr 32 (3232235520, 30) ≤ x ∧ x ≤ bcastAddr 32 (3232235520, 30)) ∧
     (30 = 30 → (hostsV4 (3232235520, 30)).length = 2) ∧
     (∀ a6 p6 x : Nat, x ∈ hostsV6 (a6, p6) ↔
        netAddr 128 (a6, p6) ≤ x ∧ x ≤ bcastAddr 128 (a6, p6))) :=
  ⟨by decide, by decide,
    hosts_endpoint_exclusion 3232235520 30 (by decide) (by decide)⟩

/-! ## Range construction and checked arithmetic (spec sections 3 and 7) -/

/-- Modelled from the spec, section 3: constructing an `AddressRange`
fails with `InvalidRange` when the lower bound exceeds the upper bound;
reversed bounds are never accepted silently. -/
def mkAddrRange (lo hi : Nat) : Except IpnetError (Nat × Nat) :=
  if lo ≤ hi then Except.ok (lo, hi) else Except.error IpnetError.invalidRange

/-- Modelled from the spec, section 4.3: constructing a SubnetAggregator
fails with `InvalidRange` when `lo > hi` is supplied. -/
def mkSubnetAggregator (W pmin lo hi : Nat) : Except IpnetError (List (Nat × Nat)) :=
  if lo ≤ hi then Except.ok (ipSubnets W pmin lo hi)
  else Except.error IpnetError.invalidRange

/-- C8: for every `lo > hi`, constructing an address range or a
SubnetAggregator over `(lo, hi)` fails explicitly with `InvalidRange`;
for `lo ≤ hi` construction succeeds with the bounds unchanged, so
reversed bounds are never silently accepted or misordered. -/
theorem reversed_bounds_rejected (W pmin lo hi : Nat) :
    (hi < lo →
       mkAddrRange lo hi = Except.error IpnetError.invalidRange ∧
       mkSubnetAggregator W pmin lo hi = Except.error IpnetError.invalidRange) ∧
    (lo ≤ hi →
       mkAddrRange lo hi = Except.ok (lo, hi) ∧
       mkSubnetAggregator W pmin lo hi = Except.ok (ipSubnets W pmin lo hi)) := by
  constructor
  · intro h
    constructor
    · rw [mkAddrRange, if_neg (by omega)]
    · rw [mkSubnetAggregator, if_neg (by omega)]
  · intro h
    constructor
    · rw [mkAddrRange, if_pos h]
    · rw [mkSubnetAggregator, if_pos h]

/-! ## Checked address addition and subtraction (spec section 7) -/

/-- Modelled from the spec, section 7: the `IpAdd` operation on addresses
of width `W` reports `ArithmeticOverflow` instead of wrapping when the
exact sum exceeds the representable range. -/
def ipAdd (W a n : Nat) : Except IpnetError Nat :=
  if a + n < 2 ^ W then Except.ok (a + n)
  else Except.error IpnetError.arithmeticOverflow

/-- Modelled from the spec, section 7: the `IpSub` operation reports
`ArithmeticOverflow` instead of wrapping when the exact difference would
be negative. -/
def ipSub (W a n : Nat) : Except IpnetError Nat :=
  if n ≤ a then Except.ok (a - n)
  else Except.error IpnetError.arithmeticOverflow

/-- C9: address addition and subtraction report `ArithmeticOverflow` to
the caller exactly when the exact result is not representable, and
otherwise return the exact result — the failure is never replaced with a
default value and the result never wraps. -/
theorem arithmetic_overflow_reported (W a n : Nat) :
    (2 ^ W ≤ a + n → ipAdd W a n = Except.error IpnetError.arithmeticOverflow) ∧
    (a + n < 2 ^ W → ipAdd W a n = Except.ok (a + n)) ∧
    (a < n → ipSub W a n = Except.error IpnetError.arithmeticOverflow) ∧
    (n ≤ a → ipSub W a n = Except.ok (a - n)) ∧
    (∀ r, ipAdd W a n = Except.ok r → r = a + n ∧ r < 2 ^ W) ∧
    (∀ r, ipSub W a n = Except.ok r → r = a - n) := by
  refine ⟨?_, ?_, ?_, ?_, ?_, ?_⟩
  · intro h
    rw [ipAdd, if_neg (by omega)]
  · intro h
    rw [ipAdd, if_pos h]
  · intro h
    rw [ipSub, if_neg (by omega)]
  · intro h
    rw [ipSub, if_pos h]
  · intro r hr
    rw [ipAdd] at hr
    split at hr
    · cases hr
      constructor
      · rfl
      · assumption
    · exact Except.noConfusion hr
  · intro r hr
    rw [ipSub] at hr
    split at hr
    · cases hr
      rfl
    · exact Except.noConfusion hr

/-- Witness for C8 at `lo = 5 > hi = 3`. -/
theorem reversed_bounds_rejected_witness :
    ((3 : Nat) < 5 →
       mkAddrRange 5 3 = Except.error IpnetError.invalidRange ∧
       mkSubnetAggregator 32 0 5 3 = Except.error IpnetError.invalidRange) ∧
    ((5 : Nat) ≤ 3 →
       mkAddrRange 5 3 = Except.ok (5, 3) ∧
       mkSubnetAggregator 32 0 5 3 = Except.ok (ipSubnets 32 0 5 3)) :=
  reversed_bounds_rejected 32 0 5 3

/-- Witness for C9 at `W = 32`, `a = 2^32 - 1`, `n = 1` (increment at the
top of the address space). -/
theorem arithmetic_overflow_reported_witness :
    (2 ^ 32 ≤ 4294967295 + 1 →
       ipAdd 32 4294967295 1 = Except.error IpnetError.arithmeticOverflow) ∧
    (4294967295 + 1 < 2 ^ 32 → ipAdd 32 4294967295 1 = Except.ok (4294967295 + 1)) ∧
    (4294967295 < 1 → ipSub 32 4294967295 1 = Except.error IpnetError.arithmeticOverflow) ∧
    ((1 : Nat) ≤ 4294967295 → ipSub 32 4294967295 1 = Except.ok (4294967295 - 1)) ∧
    (∀ r, ipAdd 32 4294967295 1 = Except.ok r → r = 4294967295 + 1 ∧ r < 2 ^ 32) ∧
    (∀ r, ipSub 32 4294967295 1 = Except.ok r → r = 4294967295 - 1) :=
  arithmetic_overflow_reported 32 4294967295 1

/-! ## Aggregate (spec section 4.4) -/

/-- The `(network_address, broadcast_address)` span of a network value
(spec section 4.4 step 1). -/
def spanOf (W : Nat) (b : Nat × Nat) : Nat × Nat := (netAddr W b, bcastAddr W b)

/-- Modelled from the spec, section 4.4 step 2: the sort order on spans:
network address ascending, ties broken by span length ascending (for
equal starts, span length order is upper-end order). -/
def spanLe (s t : Nat × Nat) : Prop :=
  s.1 < t.1 ∨ (s.1 = t.1 ∧ s.2 ≤ t.2)

instance spanLe_decidable : DecidableRel spanLe := fun s t => by
  unfold spanLe
  infer_instance

instance spanLe_total : IsTotal (Nat × Nat) spanLe := by
  constructor
  intro a b
  unfold spanLe
  omega

instance spanLe_trans : IsTrans (Nat × Nat) spanLe := by
  constructor
  intro a b c
  unfold spanLe
  omega

/-- Modelled from the spec, section 4.4 step 2: sort the spans. -/
def sortSpans (l : List (Nat × Nat)) : List (Nat × Nat) :=
  List.insertionSort spanLe l

/-- Modelled from the spec, section 4.4 step 3: merge spans that are
contiguous or overlapping (next span's network address is at most the
previous span's broadcast address plus one) into maximal merged spans. -/
def mergeSpans : List (Nat × Nat) → List (Nat × Nat)
  | [] => []
  | [s] => [s]
  | s :: t :: rest =>
    if t.1 ≤ s.2 + 1 then mergeSpans ((s.1, max s.2 t.2) :: rest)
    else s :: mergeSpans (t :: rest)
termination_by l => l.length
decreasing_by
  all_goals simp

/-- Modelled from the spec, section 4.4: Aggregate: span every input
network value, sort, merge contiguous or overlapping spans, and run the
SubnetAggregator with `pmin = 0` on each merged span. -/
def aggregate (W : Nat) (items : List (Nat × Nat)) : List (Nat × Nat) :=
  ((mergeSpans (sortSpans (items.map (spanOf W)))).map
    (fun s => ipSubnets W 0 s.1 s.2)).flatten

theorem mergeSpans_cons2_merge (s t : Nat × Nat) (rest : List (Nat × Nat))
    (h : t.1 ≤ s.2 + 1) :
    mergeSpans (s :: t :: rest) = mergeSpans ((s.1, max s.2 t.2) :: rest) := by
  rw [mergeSpans]
  simp [h]

theorem mergeSpans_cons2_gap (s t : Nat × Nat) (rest : List (Nat × Nat))
    (h : ¬ t.1 ≤ s.2 + 1) :
    mergeSpans (s :: t :: rest) = s :: mergeSpans (t :: rest) := by
  rw [mergeSpans]
  simp [h]

/-- Merging preserves well-formedness of the spans. -/
theorem mergeSpans_wf (w : Nat) :
    ∀ n l, l.length ≤ n → (∀ s ∈ l, s.1 ≤ s.2 ∧ s.2 < w) →
      ∀ s ∈ mergeSpans l, s.1 ≤ s.2 ∧ s.2 < w := by
  intro n
  induction n with
  | zero =>
    intro l hl hwf s hs
    match l, hl with
    | [], _ =>
      rw [mergeSpans] at hs
      simp at hs
  | succ n ih =>
    intro l hl hwf s hs
    match l with
    | [] =>
      rw [mergeSpans] at hs
      simp at hs
    | [t] =>
      rw [mergeSpans] at hs
      simp at hs
      rw [hs]
      exact hwf t (List.mem_cons_self _ _)
    | t :: u :: rest =>
      by_cases h : u.1 ≤ t.2 + 1
      · rw [mergeSpans_cons2_merge t u rest h] at hs
        refine ih ((t.1, max t.2 u.2) :: rest) (by simp at hl ⊢; omega) ?_ s hs
        intro x hx
        rcases List.mem_cons.mp hx with rfl | hx
        · have h1 := hwf t (List.mem_cons_self _ _)
          have h2 := hwf u (List.mem_cons_of_mem _ (List.mem_cons_self _ _))
          simp only
          omega
        · exact hwf x (List.mem_cons_of_mem _ (List.mem_cons_of_mem _ hx))
      · rw [mergeSpans_cons2_gap t u rest h] at hs
        rcases List.mem_cons.mp hs with rfl | hs
        · exact hwf s (List.mem_cons_self _ _)
        · refine ih (u :: rest) (by simp at hl ⊢; omega) ?_ s hs
          intro x hx
          exact hwf x (List.mem_cons_of_mem _ hx)

/-- Merging keeps the first span's start and can only extend its end. -/
theorem mergeSpans_head :
    ∀ (l : List (Nat × Nat)) (x y : Nat), ∃ e tl,
      mergeSpans ((x, y) :: l) = (x, e) :: tl ∧ y ≤ e := by
  intro l
  induction l with
  | nil =>
    intro x y
    exact ⟨y, [], by rw [mergeSpans], le_refl _⟩
  | cons t rest ih =>
    intro x y
    by_cases h : t.1 ≤ y + 1
    · obtain ⟨e, tl, heq, hle⟩ := ih x (max y t.2)
      refine ⟨e, tl, ?_, by omega⟩
      rw [mergeSpans_cons2_merge (x, y) t rest h]
      exact heq
    · exact ⟨y, mergeSpans (t :: rest), mergeSpans_cons2_gap (x, y) t rest h, le_refl _⟩

/-- On a list sorted by start, merging produces spans separated by gaps
of at least one address. -/
theorem mergeSpans_chain :
    ∀ n l, l.length ≤ n → l.Pairwise (fun s t : Nat × Nat => s.1 ≤ t.1) →
      (mergeSpans l).Chain' (fun s t => s.2 + 1 < t.1) := by
  intro n
  induction n with
  | zero =>
    intro l hl _
    match l, hl with
    | [], _ =>
      rw [mergeSpans]
      exact List.chain'_nil
  | succ n ih =>
    intro l hl hp
    match l with
    | [] =>
      rw [mergeSpans]
      exact List.chain'_nil
    | [t] =>
      rw [mergeSpans]
      simp
    | t :: u :: rest =>
      obtain ⟨ht, hp1⟩ := List.pairwise_cons.mp hp
      obtain ⟨hu, hp2⟩ := List.pairwise_cons.mp hp1
      by_cases h : u.1 ≤ t.2 + 1
      · rw [mergeSpans_cons2_merge t u rest h]
        refine ih ((t.1, max t.2 u.2) :: rest) (by simp at hl ⊢; omega) ?_
        rw [List.pairwise_cons]
        refine ⟨?_, hp2⟩
        intro a ha
        have := ht a (List.mem_cons_of_mem _ ha)
        simp only
        omega
      · rw [mergeSpans_cons2_gap t u rest h]
        obtain ⟨e, tl, heq, hle⟩ := mergeSpans_head rest u.1 u.2
        have hchain := ih (u :: rest) (by simp at hl ⊢; omega) hp1
        refine List.chain'_cons'.mpr ⟨?_, hchain⟩
        intro y hy
        have hueta : (u.1, u.2) = u := rfl
        rw [← hueta, heq] at hy
        simp at hy
        rw [← hy]
        show t.2 + 1 < u.1
        omega

theorem spanOf_aligned (W : Nat) (b : Nat × Nat) (h : 2 ^ (W - b.2) ∣ b.1) :
    spanOf W b = (b.1, b.1 + (2 ^ (W - b.2) - 1)) := by
  rw [spanOf, bcastAddr, netAddr_of_aligned W b h]

theorem spanOf_block (W pmin hi c : Nat) :
    spanOf W (c, blockPrefix W pmin hi c) =
      (c, c + (2 ^ (W - blockPrefix W pmin hi c) - 1)) :=
  spanOf_aligned W _ (blockSize_dvd W pmin hi c)

/-- The spans of a tile's blocks are strictly ascending in start. -/
theorem tile_spans_chain (W lo hi : Nat) :
    ((ipSubnets W 0 lo hi).map (spanOf W)).Chain' (fun s t => s.1 < t.1) := by
  rw [List.chain'_map]
  refine chain'_imp_mem (P := fun b => 2 ^ (W - b.2) ∣ b.1) _
    (ipSubnetsFrom_chain W 0 hi (hi + 1 - lo) lo (le_refl _))
    (fun b hb => (ipSubnetsFrom_mem W 0 hi (hi + 1 - lo) lo (le_refl _) b hb).2.1) ?_
  intro a b ha hb hR
  have h4 : 0 < 2 ^ (W - a.2) := Nat.two_pow_pos _
  show netAddr W a < netAddr W b
  rw [netAddr_of_aligned W a ha, netAddr_of_aligned W b hb]
  omega

/-- Every span of a tile lies inside the tile's range. -/
theorem tile_spans_mem (W lo hi : Nat) :
    ∀ s ∈ (ipSubnets W 0 lo hi).map (spanOf W),
      lo ≤ s.1 ∧ s.1 ≤ s.2 ∧ s.2 ≤ hi := by
  intro s hs
  rw [List.mem_map] at hs
  obtain ⟨b, hb, rfl⟩ := hs
  have hfacts := ipSubnetsFrom_mem W 0 hi (hi + 1 - lo) lo (le_refl _) b hb
  have hsz : 0 < 2 ^ (W - b.2) := Nat.two_pow_pos _
  rw [spanOf_aligned W b hfacts.2.1]
  simp only
  omega

/-- A live tile's span list starts at the tile's lower bound. -/
theorem tile_spans_cons (W lo hi : Nat) (h : lo ≤ hi) :
    (ipSubnets W 0 lo hi).map (spanOf W) =
      (lo, lo + (2 ^ (W - blockPrefix W 0 hi lo) - 1)) ::
        (ipSubnetsFrom W 0 hi (lo + 2 ^ (W - blockPrefix W 0 hi lo))).map (spanOf W) := by
  rw [ipSubnets, ipSubnetsFrom_cons W 0 hi lo h, List.map_cons, spanOf_block]

/-- A consecutive tiling of `[c, hi]` is absorbed by the merge into the
single span that an adjacent accumulated span extends to. -/
theorem mergeSpans_absorb_aux (W hi : Nat) :
    ∀ n c a d rest, hi + 1 - c ≤ n → c = d + 1 → a ≤ d → c ≤ hi + 1 →
      mergeSpans ((a, d) :: ((ipSubnetsFrom W 0 hi c).map (spanOf W) ++ rest)) =
        mergeSpans ((a, hi) :: rest) := by
  intro n
  induction n with
  | zero =>
    intro c a d rest hc h1 h2 h3
    rw [ipSubnetsFrom_nil W 0 hi c (by omega)]
    simp only [List.map_nil, List.nil_append]
    have hd : d = hi := by omega
    rw [hd]
  | succ n ih =>
    intro c a d rest hc h1 h2 h3
    by_cases hchi : c ≤ hi
    · rw [ipSubnetsFrom_cons W 0 hi c hchi, List.map_cons, spanOf_block,
        List.cons_append]
      have hsz : 0 < 2 ^ (W - blockPrefix W 0 hi c) := Nat.two_pow_pos _
      have hfit := blockSize_le_avail W 0 hi c hchi
      rw [mergeSpans_cons2_merge _ _ _ (by simp only; omega)]
      have hmax : max (a, d).2 (c, c + (2 ^ (W - blockPrefix W 0 hi c) - 1)).2
          = c + (2 ^ (W - blockPrefix W 0 hi c) - 1) := by
        simp only
        omega
      rw [hmax]
      exact ih (c + 2 ^ (W - blockPrefix W 0 hi c)) a
        (c + (2 ^ (W - blockPrefix W 0 hi c) - 1)) rest
        (by omega) (by omega) (by omega) (by omega)
    · rw [ipSubnetsFrom_nil W 0 hi c (by omega)]
      simp only [List.map_nil, List.nil_append]
      have hd : d = hi := by omega
      rw [hd]

/-- Merging collapses the spans of a tile of `[c, hi]` back into the
single span `(c, hi)`. -/
theorem mergeSpans_absorb (W hi c : Nat) (rest : List (Nat × Nat)) (h : c ≤ hi) :
    mergeSpans ((ipSubnets W 0 c hi).map (spanOf W) ++ rest) =
      mergeSpans ((c, hi) :: rest) := by
  rw [tile_spans_cons W c hi h, List.cons_append]
  have hsz : 0 < 2 ^ (W - blockPrefix W 0 hi c) := Nat.two_pow_pos _
  have hfit := blockSize_le_avail W 0 hi c h
  exact mergeSpans_absorb_aux W hi (hi + 1 - (c + 2 ^ (W - blockPrefix W 0 hi c)))
    (c + 2 ^ (W - blockPrefix W 0 hi c)) c
    (c + (2 ^ (W - blockPrefix W 0 hi c) - 1)) rest
    (le_refl _) (by omega) (by omega) (by omega)

/-- Re-spanning the flattened tiles of a separated list of merged spans:
the spans are strictly ascending and merging them returns exactly the
merged-span list. -/
theorem aggregate_tiles (W : Nat) :
    ∀ M : List (Nat × Nat),
      (∀ m ∈ M, m.1 ≤ m.2 ∧ m.2 < 2 ^ W) →
      M.Chain' (fun s t => s.2 + 1 < t.1) →
      ((((M.map (fun m => ipSubnets W 0 m.1 m.2)).flatten).map (spanOf W)).Chain'
         (fun s t => s.1 < t.1)) ∧
      mergeSpans (((M.map (fun m => ipSubnets W 0 m.1 m.2)).flatten).map (spanOf W)) = M := by
  intro M
  induction M with
  | nil =>
    intro _ _
    constructor
    · simp
    · simp
      rw [mergeSpans]
  | cons m M' ih =>
    intro hwf hchain
    obtain ⟨hm1, hm2⟩ := hwf m (List.mem_cons_self _ _)
    have hwf' : ∀ x ∈ M', x.1 ≤ x.2 ∧ x.2 < 2 ^ W :=
      fun x hx => hwf x (List.mem_cons_of_mem _ hx)
    obtain ⟨hgap, hchain'⟩ := List.chain'_cons'.mp hchain
    obtain ⟨ihchain, ihmerge⟩ := ih hwf' hchain'
    have hdecomp : (((m :: M').map (fun m => ipSubnets W 0 m.1 m.2)).flatten).map (spanOf W) =
        (ipSubnets W 0 m.1 m.2).map (spanOf W) ++
          ((M'.map (fun m => ipSubnets W 0 m.1 m.2)).flatten).map (spanOf W) := by
      rw [List.map_cons, List.flatten_cons, List.map_append]
    -- the head of the rest of the spans, when the rest is nonempty
    have hheadrest : ∀ y ∈ (((M'.map (fun m => ipSubnets W 0 m.1 m.2)).flatten).map
        (spanOf W)).head?, m.2 + 1 < y.1 := by
      intro y hy
      match hM' : M' with
      | [] => simp [hM'] at hy
      | m' :: M'' =>
        obtain ⟨hm'1, hm'2⟩ := hwf' m' (by rw [hM']; exact List.mem_cons_self _ _)
        rw [hM'] at hy
        rw [List.map_cons, List.flatten_cons, List.map_append,
          tile_spans_cons W m'.1 m'.2 hm'1, List.cons_append] at hy
        simp at hy
        have hgapm := hgap (m'.1, m'.2) (by rw [hM']; simp)
        rw [← hy]
        simp only at hgapm ⊢
        omega
    constructor
    · rw [hdecomp]
      refine List.Chain'.append (tile_spans_chain W m.1 m.2) ihchain ?_
      intro x hx y hy
      have hxmem := List.mem_of_mem_getLast? hx
      have hxfacts := tile_spans_mem W m.1 m.2 x hxmem
      have := hheadrest y hy
      omega
    · rw [hdecomp, mergeSpans_absorb W m.2 m.1 _ hm1]
      match hM' : M' with
      | [] =>
        simp
        rw [mergeSpans]
      | m' :: M'' =>
        obtain ⟨hm'1, hm'2⟩ := hwf' m' (by rw [hM']; exact List.mem_cons_self _ _)
        have hgapm := hgap (m'.1, m'.2) (by rw [hM']; simp)
        rw [List.map_cons, List.flatten_cons, List.map_append,
          tile_spans_cons W m'.1 m'.2 hm'1, List.cons_append]
        rw [mergeSpans_cons2_gap _ _ _ (by simp only at hgapm ⊢; omega)]
        rw [← List.cons_append, ← tile_spans_cons W m'.1 m'.2 hm'1,
          ← List.map_append, ← List.flatten_cons]
        rw [hM'] at ihmerge
        rw [List.map_cons] at ihmerge
        rw [ihmerge]

/-- The span of a well-formed network value is a well-formed span. -/
theorem spanOf_wf (W : Nat) (b : Nat × Nat) (hb1 : b.1 < 2 ^ W) (hb2 : b.2 ≤ W) :
    (spanOf W b).1 ≤ (spanOf W b).2 ∧ (spanOf W b).2 < 2 ^ W := by
  have hsz : 0 < 2 ^ (W - b.2) := Nat.two_pow_pos _
  have hq : b.1 / 2 ^ (W - b.2) < 2 ^ b.2 := by
    apply Nat.div_lt_of_lt_mul
    have hWsplit : 2 ^ (W - b.2) * 2 ^ b.2 = 2 ^ W := by
      rw [← pow_add]
      congr 1
      omega
    omega
  have hnet : netAddr W b + 2 ^ (W - b.2) ≤ 2 ^ W := by
    have h3 : 2 ^ b.2 * 2 ^ (W - b.2) = 2 ^ W := by
      rw [← pow_add]
      congr 1
      omega
    calc netAddr W b + 2 ^ (W - b.2)
        = (b.1 / 2 ^ (W - b.2) + 1) * 2 ^ (W - b.2) := by
          rw [netAddr, Nat.succ_mul]
      _ ≤ 2 ^ b.2 * 2 ^ (W - b.2) := Nat.mul_le_mul_right _ (by omega)
      _ = 2 ^ W := h3
  refine ⟨?_, ?_⟩
  · show netAddr W b ≤ bcastAddr W b
    rw [bcastAddr]
    omega
  · show bcastAddr W b < 2 ^ W
    rw [bcastAddr]
    omega

/-- C5: Aggregate is idempotent: applying Aggregate to its own output
returns the same sequence of blocks. -/
theorem aggregate_idempotent (W : Nat) (items : List (Nat × Nat))
    (hwf : ∀ b ∈ items, b.1 < 2 ^ W ∧ b.2 ≤ W) :
    aggregate W (aggregate W items) = aggregate W items := by
  have hspan0 : ∀ s ∈ sortSpans (items.map (spanOf W)), s.1 ≤ s.2 ∧ s.2 < 2 ^ W := by
    intro s hs
    have hmem : s ∈ items.map (spanOf W) :=
      (List.perm_insertionSort spanLe (items.map (spanOf W))).mem_iff.mp hs
    rw [List.mem_map] at hmem
    obtain ⟨b, hb, rfl⟩ := hmem
    obtain ⟨hb1, hb2⟩ := hwf b hb
    exact spanOf_wf W b hb1 hb2
  have hMwf : ∀ m ∈ mergeSpans (sortSpans (items.map (spanOf W))),
      m.1 ≤ m.2 ∧ m.2 < 2 ^ W :=
    mergeSpans_wf (2 ^ W) (sortSpans (items.map (spanOf W))).length _ (le_refl _) hspan0
  have hsorted : (sortSpans (items.map (spanOf W))).Pairwise
      (fun s t : Nat × Nat => s.1 ≤ t.1) := by
    have hs := List.sorted_insertionSort spanLe (items.map (spanOf W))
    exact hs.imp (fun hab => by unfold spanLe at hab; omega)
  have hMchain : (mergeSpans (sortSpans (items.map (spanOf W)))).Chain'
      (fun s t => s.2 + 1 < t.1) :=
    mergeSpans_chain (sortSpans (items.map (spanOf W))).length _ (le_refl _) hsorted
  obtain ⟨hAchain, hAmerge⟩ :=
    aggregate_tiles W (mergeSpans (sortSpans (items.map (spanOf W)))) hMwf hMchain
  have hsorted2 : List.Sorted spanLe
      ((((mergeSpans (sortSpans (items.map (spanOf W)))).map
        (fun m => ipSubnets W 0 m.1 m.2)).flatten).map (spanOf W)) := by
    haveI : IsTrans (Nat × Nat) (fun s t : Nat × Nat => s.1 < t.1) :=
      ⟨fun a b c h1 h2 => by omega⟩
    have hpw := List.chain'_iff_pairwise.mp hAchain
    exact hpw.imp (fun hab => by unfold spanLe; exact Or.inl hab)
  show aggregate W (((mergeSpans (sortSpans (items.map (spanOf W)))).map
    (fun m => ipSubnets W 0 m.1 m.2)).flatten) = aggregate W items
  rw [aggregate, sortSpans, List.Sorted.insertionSort_eq hsorted2, hAmerge]
  rfl

/-- Witness for C5 on the collection from the spec's concrete scenario:
the two contiguous networks `192.168.0.0/24` and `192.168.1.0/24`. -/
theorem aggregate_idempotent_witness :
    (∀ b ∈ [((3232235520 : Nat), (24 : Nat)), (3232235776, 24)],
       b.1 < 2 ^ 32 ∧ b.2 ≤ 32) ∧
    aggregate 32 (aggregate 32 [(3232235520, 24), (3232235776, 24)]) =
      aggregate 32 [(3232235520, 24), (3232235776, 24)] :=
  ⟨by decide, aggregate_idempotent 32 [(3232235520, 24), (3232235776, 24)] (by decide)⟩

/-! ## The Ipv4Net JSON-schema pattern (`src/ipnet_schemars.rs`)

The `JsonSchema` implementation for `Ipv4Net` declares `maxLength 18`
and the anchored pattern

`^(?:(?:25[0-5]|2[0-4][0-9]|1[0-9][0-9]|[1-9][0-9]|[0-9])\.){3}(?:25[0-5]|2[0-4][0-9]|1[0-9][0-9]|[1-9][0-9]|[0-9])\/(?:3[0-2]|[1-2][0-9]|[0-9])$`

Strings are embedded as lists of characters; every alternative of the
pattern is a concatenation of character classes, written below by their
code points (`'0'`..`'9'` are 48..57). -/

/-- A character class `[lo-hi]` on code points. -/
def inRange (lo hi : Nat) (c : Char) : Bool := decide (lo ≤ c.toNat ∧ c.toNat ≤ hi)

/-- Match a string against a sequence of character classes. -/
def matchClasses : List (Nat × Nat) → List Char → Bool
  | [], [] => true
  | (lo, hi) :: rs, c :: cs => inRange lo hi c && matchClasses rs cs
  | _, _ => false

/-- The octet group of the pattern:
`25[0-5] | 2[0-4][0-9] | 1[0-9][0-9] | [1-9][0-9] | [0-9]`. -/
def octetRe (s : List Char) : Bool :=
  matchClasses [(50, 50), (53, 53), (48, 53)] s ||
  matchClasses [(50, 50), (48, 52), (48, 57)] s ||
  matchClasses [(49, 49), (48, 57), (48, 57)] s ||
  matchClasses [(49, 57), (48, 57)] s ||
  matchClasses [(48, 57)] s

/-- The prefix-length group of the pattern:
`3[0-2] | [1-2][0-9] | [0-9]`. -/
def prefixLenRe (s : List Char) : Bool :=
  matchClasses [(51, 51), (48, 50)] s ||
  matchClasses [(49, 50), (48, 57)] s ||
  matchClasses [(48, 57)] s

/-- The language of the full anchored pattern: four octet groups
separated by literal dots, then a literal slash and the prefix-length
group. -/
def ipv4NetRe (s : List Char) : Prop :=
  ∃ o1 o2 o3 o4 p : List Char,
    octetRe o1 = true ∧ octetRe o2 = true ∧ octetRe o3 = true ∧
    octetRe o4 = true ∧ prefixLenRe p = true ∧
    s = o1 ++ '.' :: (o2 ++ '.' :: (o3 ++ '.' :: (o4 ++ '/' :: p)))

/-- The numeric value of a decimal digit string. -/
def decVal (s : List Char) : Nat := s.foldl (fun a c => 10 * a + (c.toNat - 48)) 0

/-- `s` is a decimal numeral written without leading zeros: nonempty,
all digits, and not starting with `'0'` unless it is the single digit. -/
def isPlainDec (s : List Char) : Prop :=
  s ≠ [] ∧ (∀ c ∈ s, 48 ≤ c.toNat ∧ c.toNat ≤ 57) ∧
    (1 < s.length → s.headI.toNat ≠ 48)

/-- The claimed description of the pattern: four decimal octets in
`[0, 255]` without leading zeros, separated by dots, then `'/'` and a
decimal prefix length in `[0, 32]` without leading zeros. -/
def ipv4NetStr (s : List Char) : Prop :=
  ∃ o1 o2 o3 o4 p : List Char,
    (isPlainDec o1 ∧ decVal o1 ≤ 255) ∧ (isPlainDec o2 ∧ decVal o2 ≤ 255) ∧
    (isPlainDec o3 ∧ decVal o3 ≤ 255) ∧ (isPlainDec o4 ∧ decVal o4 ≤ 255) ∧
    (isPlainDec p ∧ decVal p ≤ 32) ∧
    s = o1 ++ '.' :: (o2 ++ '.' :: (o3 ++ '.' :: (o4 ++ '/' :: p)))

theorem decVal_foldl_lower (cs : List Char) :
    ∀ a : Nat, a * 10 ^ cs.length ≤
      cs.foldl (fun a c => 10 * a + (c.toNat - 48)) a := by
  induction cs with
  | nil =>
    intro a
    simp
  | cons c cs ih =>
    intro a
    simp only [List.foldl_cons, List.length_cons]
    calc a * 10 ^ (cs.length + 1) = (10 * a) * 10 ^ cs.length := by ring
      _ ≤ (10 * a + (c.toNat - 48)) * 10 ^ cs.length :=
          Nat.mul_le_mul_right _ (by omega)
      _ ≤ cs.foldl (fun a c => 10 * a + (c.toNat - 48)) (10 * a + (c.toNat - 48)) :=
          ih _

theorem decVal_lower (c : Char) (cs : List Char) (hc : 49 ≤ c.toNat) :
    10 ^ cs.length ≤ decVal (c :: cs) := by
  rw [decVal]
  simp only [List.foldl_cons]
  have h0 : (10 : Nat) * 0 + (c.toNat - 48) = c.toNat - 48 := by omega
  rw [h0]
  calc 10 ^ cs.length = 1 * 10 ^ cs.length := by ring
    _ ≤ (c.toNat - 48) * 10 ^ cs.length := Nat.mul_le_mul_right _ (by omega)
    _ ≤ _ := decVal_foldl_lower cs _

theorem octetRe_iff (o : List Char) :
    octetRe o = true ↔ isPlainDec o ∧ decVal o ≤ 255 := by
  constructor
  · intro h
    match o with
    | [] => simp [octetRe, matchClasses] at h
    | [c1] =>
      simp [octetRe, matchClasses, inRange] at h
      refine ⟨⟨by simp, ?_, by simp⟩, ?_⟩
      · intro c hc
        rw [List.mem_singleton] at hc
        rw [hc]
        omega
      · simp [decVal]
        omega
    | [c1, c2] =>
      simp [octetRe, matchClasses, inRange] at h
      refine ⟨⟨by simp, ?_, ?_⟩, ?_⟩
      · intro c hc
        rcases List.mem_cons.mp hc with rfl | hc
        · omega
        · rw [List.mem_singleton] at hc
          rw [hc]
          omega
      · intro _
        simp [List.headI]
        omega
      · simp [decVal]
        omega
    | [c1, c2, c3] =>
      simp [octetRe, matchClasses, inRange] at h
      refine ⟨⟨by simp, ?_, ?_⟩, ?_⟩
      · intro c hc
        rcases List.mem_cons.mp hc with rfl | hc
        · omega
        rcases List.mem_cons.mp hc with rfl | hc
        · omega
        · rw [List.mem_singleton] at hc
          rw [hc]
          omega
      · intro _
        simp [List.headI]
        omega
      · simp [decVal]
        omega
    | c1 :: c2 :: c3 :: c4 :: rest =>
      simp [octetRe, matchClasses, inRange] at h
  · rintro ⟨⟨hne, hdig, hhead⟩, hval⟩
    match o with
    | [] => exact absurd rfl hne
    | [c1] =>
      have h1 := hdig c1 (List.mem_singleton.mpr rfl)
      simp [octetRe, matchClasses, inRange]
      omega
    | [c1, c2] =>
      have h1 := hdig c1 (List.mem_cons_self _ _)
      have h2 := hdig c2 (List.mem_cons_of_mem _ (List.mem_singleton.mpr rfl))
      have hh : c1.toNat ≠ 48 := by
        refine hhead (by simp)
      simp [octetRe, matchClasses, inRange]
      omega
    | [c1, c2, c3] =>
      have h1 := hdig c1 (List.mem_cons_self _ _)
      have h2 := hdig c2 (List.mem_cons_of_mem _ (List.mem_cons_self _ _))
      have h3 := hdig c3 (List.mem_cons_of_mem _
        (List.mem_cons_of_mem _ (List.mem_singleton.mpr rfl)))
      have hh : c1.toNat ≠ 48 := by
        refine hhead (by simp)
      simp [decVal] at hval
      simp [octetRe, matchClasses, inRange]
      omega
    | c1 :: c2 :: c3 :: c4 :: rest =>
      exfalso
      have hh : c1.toNat ≠ 48 := by
        refine hhead (by simp)
      have h1 := hdig c1 (List.mem_cons_self _ _)
      have hlow := decVal_lower c1 (c2 :: c3 :: c4 :: rest) (by omega)
      have hpow : (1000 : Nat) ≤ 10 ^ (c2 :: c3 :: c4 :: rest).length := by
        have : (10 : Nat) ^ 3 ≤ 10 ^ (c2 :: c3 :: c4 :: rest).length :=
          Nat.pow_le_pow_right (by omega) (by simp)
        omega
      omega

theorem prefixLenRe_iff (p : List Char) :
    prefixLenRe p = true ↔ isPlainDec p ∧ decVal p ≤ 32 := by
  constructor
  · intro h
    match p with
    | [] => simp [prefixLenRe, matchClasses] at h
    | [c1] =>
      simp [prefixLenRe, matchClasses, inRange] at h
      refine ⟨⟨by simp, ?_, by simp⟩, ?_⟩
      · intro c hc
        rw [List.mem_singleton] at hc
        rw [hc]
        omega
      · simp [decVal]
        omega
    | [c1, c2] =>
      simp [prefixLenRe, matchClasses, inRange] at h
      refine ⟨⟨by simp, ?_, ?_⟩, ?_⟩
      · intro c hc
        rcases List.mem_cons.mp hc with rfl | hc
        · omega
        · rw [List.mem_singleton] at hc
          rw [hc]
          omega
      · intro _
        simp [List.headI]
        omega
      · simp [decVal]
        omega
    | c1 :: c2 :: c3 :: rest =>
      simp [prefixLenRe, matchClasses, inRange] at h
  · rintro ⟨⟨hne, hdig, hhead⟩, hval⟩
    match p with
    | [] => exact absurd rfl hne
    | [c1] =>
      have h1 := hdig c1 (List.mem_singleton.mpr rfl)
      simp [prefixLenRe, matchClasses, inRange]
      omega
    | [c1, c2] =>
      have h1 := hdig c1 (List.mem_cons_self _ _)
      have h2 := hdig c2 (List.mem_cons_of_mem _ (List.mem_singleton.mpr rfl))
      have hh : c1.toNat ≠ 48 := by
        refine hhead (by simp)
      simp [decVal] at hval
      simp [prefixLenRe, matchClasses, inRange]
      omega
    | c1 :: c2 :: c3 :: rest =>
      exfalso
      have hh : c1.toNat ≠ 48 := by
        refine hhead (by simp)
      have h1 := hdig c1 (List.mem_cons_self _ _)
      have hlow := decVal_lower c1 (c2 :: c3 :: rest) (by omega)
      have hpow : (100 : Nat) ≤ 10 ^ (c2 :: c3 :: rest).length := by
        have : (10 : Nat) ^ 2 ≤ 10 ^ (c2 :: c3 :: rest).length :=
          Nat.pow_le_pow_right (by omega) (by simp)
        omega
      omega

theorem octetRe_length (o : List Char) (h : octetRe o = true) : o.length ≤ 3 := by
  match o with
  | [] => simp
  | [c1] => simp
  | [c1, c2] => simp
  | [c1, c2, c3] => simp
  | c1 :: c2 :: c3 :: c4 :: rest => simp [octetRe, matchClasses] at h

theorem prefixLenRe_length (p : List Char) (h : prefixLenRe p = true) :
    p.length ≤ 2 := by
  match p with
  | [] => simp
  | [c1] => simp
  | [c1, c2] => simp
  | c1 :: c2 :: c3 :: rest => simp [prefixLenRe, matchClasses] at h

/-- C10: a string matches the `Ipv4Net` JSON-schema pattern iff it is
four decimal octets in `[0, 255]` without leading zeros separated by
dots, followed by `'/'` and a decimal prefix length in `[0, 32]` without
leading zeros; and every matching string has length at most 18, the
`maxLength` declared in the same schema. -/
theorem ipv4Net_pattern_spec (s : List Char) :
    (ipv4NetRe s ↔ ipv4NetStr s) ∧ (ipv4NetRe s → s.length ≤ 18) := by
  constructor
  · constructor
    · rintro ⟨o1, o2, o3, o4, p, h1, h2, h3, h4, hp, rfl⟩
      exact ⟨o1, o2, o3, o4, p, (octetRe_iff o1).mp h1, (octetRe_iff o2).mp h2,
        (octetRe_iff o3).mp h3, (octetRe_iff o4).mp h4, (prefixLenRe_iff p).mp hp, rfl⟩
    · rintro ⟨o1, o2, o3, o4, p, h1, h2, h3, h4, hp, rfl⟩
      exact ⟨o1, o2, o3, o4, p, (octetRe_iff o1).mpr h1, (octetRe_iff o2).mpr h2,
        (octetRe_iff o3).mpr h3, (octetRe_iff o4).mpr h4, (prefixLenRe_iff p).mpr hp, rfl⟩
  · rintro ⟨o1, o2, o3, o4, p, h1, h2, h3, h4, hp, rfl⟩
    have l1 := octetRe_length o1 h1
    have l2 := octetRe_length o2 h2
    have l3 := octetRe_length o3 h3
    have l4 := octetRe_length o4 h4
    have lp := prefixLenRe_length p hp
    simp only [List.length_append, List.length_cons]
    omega

/-- Witness for C10 on the concrete string `192.168.0.0/24`. -/
theorem ipv4Net_pattern_spec_witness :
    ipv4NetStr ['1', '9', '2', '.', '1', '6', '8', '.', '0', '.', '0', '/', '2', '4'] ∧
    (['1', '9', '2', '.', '1', '6', '8', '.', '0', '.', '0', '/', '2', '4'] :
      List Char).length ≤ 18 := by
  have hre : ipv4NetRe
      ['1', '9', '2', '.', '1', '6', '8', '.', '0', '.', '0', '/', '2', '4'] :=
    ⟨['1', '9', '2'], ['1', '6', '8'], ['0'], ['0'], ['2', '4'],
      by decide, by decide, by decide, by decide, by decide, rfl⟩
  exact ⟨(ipv4Net_pattern_spec _).1.mp hre, (ipv4Net_pattern_spec _).2 hre⟩
